import Mathlib

/-!
Verification development for the AgentFarm-MCP request-execution core.

Shallow embedding of the three components the specification covers:
* `CacheService`   — src/agentfarm_mcp/services/cache_service.py
* `CircuitBreaker` — src/agentfarm_mcp/utils/circuit_breaker.py
* `ToolBase`       — src/agentfarm_mcp/tools/base.py

Python dictionaries are modelled as association lists; the `OrderedDict`
used by the cache is an association list whose order is insertion/recency
order (head = oldest, last = most recently used).  Wall-clock times
(`time.time()`, `datetime.now()`) are ambient `Int` parameters.
-/

namespace AgentFarm

/-! ### Association-list model of Python dict / OrderedDict -/

/-- Membership test: Python `key in d`. -/
def dictContains (l : List (String × α)) (k : String) : Bool :=
  (l.lookup k).isSome

/-- Python `d[key] = v`: replace the value in place if the key exists,
otherwise append the new binding at the end (dict/OrderedDict keep
insertion order, and assigning to an existing key keeps its position). -/
def dictAssign (l : List (String × α)) (k : String) (v : α) : List (String × α) :=
  if dictContains l k then
    l.map (fun p => if p.1 == k then (k, v) else p)
  else
    l ++ [(k, v)]

/-- Python `del d[key]` (total model: removing an absent key is the
identity; the cache only deletes keys it has checked are present). -/
def dictDelete (l : List (String × α)) (k : String) : List (String × α) :=
  l.filter (fun p => p.1 != k)

/-- Python `OrderedDict.move_to_end(key)`: detach the binding of `key`
and re-attach it at the (most-recent) end.  Python raises `KeyError`
when the key is absent; the cache only calls it on present keys, so the
absent case is modelled as the identity. -/
def odMoveToEnd (l : List (String × α)) (k : String) : List (String × α) :=
  match l.lookup k with
  | none => l
  | some v => dictDelete l k ++ [(k, v)]

/-! ### Cache configuration and state (cache_service.py) -/

/-- CacheConfig (config.py): `max_size: int = Field(100, ge=0, le=1000)`,
`ttl_seconds: int = Field(300, ge=0)`, `enabled: bool = Field(True)`. -/
structure CacheConfig where
  enabled : Bool
  maxSize : Nat
  ttlSeconds : Int
deriving Repr, DecidableEq

/-- State of `CacheService` (cache_service.py `__init__`): the
`OrderedDict` `_cache`, the timestamp dict `_timestamps`, hit/miss
counters, plus `config` and the copied `enabled` flag. -/
structure CacheService (V : Type) where
  config : CacheConfig
  enabled : Bool
  cache : List (String × V)
  timestamps : List (String × Int)
  hits : Nat
  misses : Nat

/-- `CacheService.__init__`. -/
def CacheService.init (V : Type) (cfg : CacheConfig) : CacheService V :=
  { config := cfg, enabled := cfg.enabled, cache := [], timestamps := []
    hits := 0, misses := 0 }

/-- `CacheService._evict`: `if key in self._cache: del self._cache[key];
del self._timestamps[key]`. -/
def CacheService.evict (s : CacheService V) (key : String) : CacheService V :=
  if dictContains s.cache key then
    { s with cache := dictDelete s.cache key, timestamps := dictDelete s.timestamps key }
  else s

/-- `CacheService.get`: returns the cached value (or `none`) and the
post-call cache state.  `now` stands for the `time.time()` call in the
TTL check.  Mirrors cache_service.py lines 39-75: disabled short-circuit,
miss counting, TTL expiry (evict + miss), and the LRU `move_to_end` plus
hit count on success. -/
def CacheService.get (s : CacheService V) (key : String) (now : Int) :
    Option V × CacheService V :=
  if s.enabled = false then (none, s)
  else
    match s.cache.lookup key with
    | none => (none, { s with misses := s.misses + 1 })
    | some v =>
      if 0 < s.config.ttlSeconds ∧
          s.config.ttlSeconds < now - (s.timestamps.lookup key).getD 0 then
        let s1 := s.evict key
        (none, { s1 with misses := s1.misses + 1 })
      else
        (some v, { s with cache := odMoveToEnd s.cache key, hits := s.hits + 1 })

/-- `CacheService.set` (cache_service.py lines 77-100).  When the cache
is at capacity and the key is new, `oldest_key = next(iter(self._cache))`
is evicted first; on an empty cache (possible only when `max_size = 0`)
that `next` raises `StopIteration`, modelled as `none`.  Otherwise the
value is assigned, the timestamp recorded, and the key moved to the
most-recent end. -/
def CacheService.set (s : CacheService V) (key : String) (v : V) (now : Int) :
    Option (CacheService V) :=
  if s.enabled = false then some s
  else
    let afterEvict : Option (CacheService V) :=
      if s.config.maxSize ≤ s.cache.length ∧ dictContains s.cache key = false then
        match s.cache.head? with
        | some oldest => some (s.evict oldest.1)
        | none => none
      else some s
    afterEvict.map fun s1 =>
      { s1 with
        cache := odMoveToEnd (dictAssign s1.cache key v) key
        timestamps := dictAssign s1.timestamps key now }

/-- `CacheService.clear`: drop all entries and reset both counters. -/
def CacheService.clear (s : CacheService V) : CacheService V :=
  { s with cache := [], timestamps := [], hits := 0, misses := 0 }

/-- Shape of the dictionary returned by `CacheService.get_stats`. -/
structure CacheStats where
  enabled : Bool
  size : Nat
  maxSize : Nat
  hits : Nat
  misses : Nat
  hitRate : ℚ
  ttlSeconds : Int
deriving Repr, DecidableEq

/-- `CacheService.get_stats` (cache_service.py lines 124-145):
`hit_rate = hits / total if total > 0 else 0`. -/
def CacheService.getStats (s : CacheService V) : CacheStats :=
  let total := s.hits + s.misses
  { enabled := s.enabled, size := s.cache.length, maxSize := s.config.maxSize
    hits := s.hits, misses := s.misses
    hitRate := if 0 < total then (s.hits : ℚ) / (total : ℚ) else 0
    ttlSeconds := s.config.ttlSeconds }

/-! ### JSON values and `json.dumps(params, sort_keys=True)` -/

/-- JSON-serialisable parameter values (the `params` dict values that
`CacheService.generate_key` feeds to `json.dumps`; values outside this
set go through `default=str`, which is not needed by any claim). -/
inductive JVal
  | int (n : Int)
  | str (s : String)
  | bool (b : Bool)
  | null
deriving Repr, DecidableEq

/-- Lower-case hexadecimal digit, as produced by Python's `hexdigest`. -/
def hexDigitChar (n : Nat) : Char :=
  if n < 10 then Char.ofNat (48 + n) else Char.ofNat (87 + n)

/-- Four-digit hex escape body for a `\u` JSON escape. -/
def hex4 (n : Nat) : List Char :=
  [hexDigitChar ((n >>> 12) % 16), hexDigitChar ((n >>> 8) % 16),
   hexDigitChar ((n >>> 4) % 16), hexDigitChar (n % 16)]

/-- JSON string escaping as done by `json.dumps` (default `ensure_ascii`):
two-character escapes for the common controls, `\uXXXX` for the other
controls and for non-ASCII code points (supplementary-plane surrogate
pairs are not modelled; no claim touches them). -/
def jsonEscapeChar (c : Char) : List Char :=
  if c = '"' then ['\\', '"']
  else if c = '\\' then ['\\', '\\']
  else if c = '\n' then ['\\', 'n']
  else if c = '\t' then ['\\', 't']
  else if c = '\r' then ['\\', 'r']
  else if c.toNat = 8 then ['\\', 'b']
  else if c.toNat = 12 then ['\\', 'f']
  else if c.toNat < 32 ∨ 127 < c.toNat then '\\' :: 'u' :: hex4 c.toNat
  else [c]

/-- Serialise a JSON string literal (quotes plus escaped body). -/
def jsonStr (s : String) : String :=
  "\"" ++ String.mk ((s.data.map jsonEscapeChar).flatten) ++ "\""

/-- Serialise one JSON scalar the way `json.dumps` prints it. -/
def JVal.dumps : JVal → String
  | .int n => toString n
  | .str s => jsonStr s
  | .bool b => if b then "true" else "false"
  | .null => "null"

/-- Order used by `sort_keys=True`: compare the key strings. -/
def keyLe (p q : String × JVal) : Prop := p.1 ≤ q.1

instance : DecidableRel keyLe := fun p q => inferInstanceAs (Decidable (p.1 ≤ q.1))

instance : IsTotal (String × JVal) keyLe := ⟨fun p q => le_total p.1 q.1⟩

instance : IsTrans (String × JVal) keyLe := ⟨fun _ _ _ h1 h2 => le_trans h1 h2⟩

/-- Sort the parameter bindings by key (`sort_keys=True`). -/
def sortParams (l : List (String × JVal)) : List (String × JVal) :=
  List.insertionSort keyLe l

/-- The canonical serialisation `json.dumps(params, sort_keys=True)` with
the default `", "` / `": "` separators. -/
def jsonDumpsSorted (params : List (String × JVal)) : String :=
  "\x7b" ++
    String.intercalate ", "
      ((sortParams params).map (fun p => jsonStr p.1 ++ ": " ++ p.2.dumps)) ++
  "\x7d"

/-! ### SHA-256 (model of `hashlib.sha256(...).hexdigest()`, FIPS 180-4) -/

/-- Modulus for 32-bit words. -/
def two32 : Nat := 4294967296

/-- Right rotation of a 32-bit word. -/
def rotr (n x : Nat) : Nat := ((x >>> n) ||| (x <<< (32 - n))) % two32

def ch (x y z : Nat) : Nat := (x &&& y) ^^^ ((x ^^^ (two32 - 1)) &&& z)

def maj (x y z : Nat) : Nat := (x &&& y) ^^^ (x &&& z) ^^^ (y &&& z)

def bsig0 (x : Nat) : Nat := rotr 2 x ^^^ rotr 13 x ^^^ rotr 22 x

def bsig1 (x : Nat) : Nat := rotr 6 x ^^^ rotr 11 x ^^^ rotr 25 x

def ssig0 (x : Nat) : Nat := rotr 7 x ^^^ rotr 18 x ^^^ (x >>> 3)

def ssig1 (x : Nat) : Nat := rotr 17 x ^^^ rotr 19 x ^^^ (x >>> 10)

/-- The 64 SHA-256 round constants. -/
def sha256K : List Nat :=
  [1116352408, 1899447441, 3049323471,
   3921009573, 961987163, 1508970993,
   2453635748, 2870763221, 3624381080,
   310598401, 607225278, 1426881987,
   1925078388, 2162078206, 2614888103,
   3248222580, 3835390401, 4022224774,
   264347078, 604807628, 770255983,
   1249150122, 1555081692, 1996064986,
   2554220882, 2821834349, 2952996808,
   3210313671, 3336571891, 3584528711,
   113926993, 338241895, 666307205,
   773529912, 1294757372, 1396182291,
   1695183700, 1986661051, 2177026350,
   2456956037, 2730485921, 2820302411,
   3259730800, 3345764771, 3516065817,
   3600352804, 4094571909, 275423344,
   430227734, 506948616, 659060556,
   883997877, 958139571, 1322822218,
   1537002063, 1747873779, 1955562222,
   2024104815, 2227730452, 2361852424,
   2428436474, 2756734187, 3204031479,
   3329325298]

/-- Working state of the compression function. -/
structure Sha256State where
  a : Nat
  b : Nat
  c : Nat
  d : Nat
  e : Nat
  f : Nat
  g : Nat
  h : Nat
deriving Repr, DecidableEq

/-- Initial hash value. -/
def sha256Init : Sha256State :=
  ⟨1779033703, 3144134277, 1013904242, 2773480762,
   1359893119, 2600822924, 528734635, 1541459225⟩

/-- One compression round (the `(Kt, Wt)` pair supplies the constant and
schedule word). -/
def sha256Round (st : Sha256State) (kw : Nat × Nat) : Sha256State :=
  let t1 := (st.h + bsig1 st.e + ch st.e st.f st.g + kw.1 + kw.2) % two32
  let t2 := (bsig0 st.a + maj st.a st.b st.c) % two32
  ⟨(t1 + t2) % two32, st.a, st.b, st.c, (st.d + t1) % two32, st.e, st.f, st.g⟩

/-- One step of message-schedule extension: append
`σ1(w[i-2]) + w[i-7] + σ0(w[i-15]) + w[i-16]` where `i` is the current
length of the schedule. -/
def sha256ExtendStep (ws : List Nat) : List Nat :=
  ws ++ [(ssig1 (ws.getD (ws.length - 2) 0) + ws.getD (ws.length - 7) 0 +
          ssig0 (ws.getD (ws.length - 15) 0) + ws.getD (ws.length - 16) 0) % two32]

/-- Extend the 16 block words to the full 64-word schedule. -/
def sha256Schedule (ws : List Nat) : List Nat := sha256ExtendStep^[48] ws

/-- Compress one 16-word block into the running hash state. -/
def sha256Compress (st : Sha256State) (block : List Nat) : Sha256State :=
  let ws := sha256Schedule block
  let r := (sha256K.zip ws).foldl sha256Round st
  ⟨(st.a + r.a) % two32, (st.b + r.b) % two32, (st.c + r.c) % two32,
   (st.d + r.d) % two32, (st.e + r.e) % two32, (st.f + r.f) % two32,
   (st.g + r.g) % two32, (st.h + r.h) % two32⟩

/-- Pack big-endian bytes into 32-bit words, four at a time. -/
def bytesToWords : List Nat → List Nat
  | b0 :: b1 :: b2 :: b3 :: rest =>
    ((b0 <<< 24) ||| (b1 <<< 16) ||| (b2 <<< 8) ||| b3) :: bytesToWords rest
  | _ => []

/-- SHA-256 padding: `0x80`, zeros, then the 64-bit big-endian bit
length, reaching a multiple of 64 bytes. -/
def sha256Pad (msg : List Nat) : List Nat :=
  let bitLen := 8 * msg.length
  let padZeros := (64 - ((msg.length + 9) % 64)) % 64
  msg ++ [128] ++ List.replicate padZeros 0 ++
    [(bitLen >>> 56) % 256, (bitLen >>> 48) % 256, (bitLen >>> 40) % 256,
     (bitLen >>> 32) % 256, (bitLen >>> 24) % 256, (bitLen >>> 16) % 256,
     (bitLen >>> 8) % 256, bitLen % 256]

/-- The eight 32-bit words of the SHA-256 digest of a byte string. -/
def sha256Words (msg : List Nat) : List Nat :=
  let blocks := ((sha256Pad msg).toChunks 64).map bytesToWords
  let r := blocks.foldl sha256Compress sha256Init
  [r.a, r.b, r.c, r.d, r.e, r.f, r.g, r.h]

/-- Eight lower-case hex digits of one 32-bit word, most significant
first. -/
def toHex8 (x : Nat) : List Char :=
  [hexDigitChar ((x >>> 28) % 16), hexDigitChar ((x >>> 24) % 16),
   hexDigitChar ((x >>> 20) % 16), hexDigitChar ((x >>> 16) % 16),
   hexDigitChar ((x >>> 12) % 16), hexDigitChar ((x >>> 8) % 16),
   hexDigitChar ((x >>> 4) % 16), hexDigitChar (x % 16)]

/-- `hashlib.sha256(bytes).hexdigest()`. -/
def sha256Hex (msg : List Nat) : String :=
  String.mk (((sha256Words msg).map toHex8).flatten)

/-- UTF-8 encoding of a string (`param_str.encode()`). -/
def strBytes (s : String) : List Nat :=
  s.toUTF8.toList.map (fun b => b.toNat)

/-- `CacheService.generate_key` (cache_service.py lines 147-164):
`"{tool_name}:{sha256(json.dumps(params, sort_keys=True)).hexdigest()}"`. -/
def CacheService.generateKey (toolName : String) (params : List (String × JVal)) : String :=
  let paramStr := jsonDumpsSorted params
  let paramHash := sha256Hex (strBytes paramStr)
  toolName ++ ":" ++ paramHash

/-! ### Circuit breaker (circuit_breaker.py) -/

/-- `CircuitState` enum. -/
inductive CircuitState
  | closed
  | open
  | halfOpen
deriving Repr, DecidableEq

/-- State of a `CircuitBreaker` instance (configuration plus mutable
fields set in `__init__`). -/
structure CircuitBreaker where
  failureThreshold : Nat
  timeout : Int
  successThreshold : Nat
  failureCount : Nat
  successCount : Nat
  lastFailureTime : Option Int
  state : CircuitState
deriving Repr, DecidableEq

/-- `CircuitBreaker.__init__`. -/
def CircuitBreaker.init (failureThreshold : Nat) (timeout : Int)
    (successThreshold : Nat) : CircuitBreaker :=
  { failureThreshold := failureThreshold, timeout := timeout
    successThreshold := successThreshold
    failureCount := 0, successCount := 0, lastFailureTime := none
    state := CircuitState.closed }

/-- `CircuitBreaker._on_success`. -/
def CircuitBreaker.onSuccess (b : CircuitBreaker) : CircuitBreaker :=
  if b.state = CircuitState.halfOpen then
    let sc := b.successCount + 1
    if b.successThreshold ≤ sc then
      { b with state := CircuitState.closed, failureCount := 0, successCount := 0 }
    else
      { b with successCount := sc }
  else if b.state = CircuitState.closed then
    if 0 < b.failureCount then { b with failureCount := 0 } else b
  else b

/-- `CircuitBreaker._on_failure` (`now` models the `time.time()` call). -/
def CircuitBreaker.onFailure (b : CircuitBreaker) (now : Int) : CircuitBreaker :=
  let b1 := { b with failureCount := b.failureCount + 1, lastFailureTime := some now }
  if b.state = CircuitState.halfOpen then
    { b1 with state := CircuitState.open, successCount := 0 }
  else if b.failureThreshold ≤ b1.failureCount then
    { b1 with state := CircuitState.open }
  else b1

/-- Outcome of one `CircuitBreaker.call`: `rejected` means
`CircuitOpenError` was raised and the wrapped function never ran;
`succeeded` / `failed` mean the function ran and returned / raised
(in the latter case the exception is re-raised after `_on_failure`). -/
inductive CallResult
  | rejected
  | succeeded
  | failed
deriving Repr, DecidableEq

/-- `CircuitBreaker.call` (circuit_breaker.py lines 71-105).  `now`
models `time.time()`; `outcome` tells whether the wrapped `func()`
would return normally (`true`) or raise (`false`).  The guard
`if self.last_failure_time and ...` is Python truthiness: both `None`
and `0.0` fail it. -/
def CircuitBreaker.call (b : CircuitBreaker) (now : Int) (outcome : Bool) :
    CallResult × CircuitBreaker :=
  let proceed : CircuitBreaker → CallResult × CircuitBreaker := fun b' =>
    if outcome then (CallResult.succeeded, b'.onSuccess)
    else (CallResult.failed, b'.onFailure now)
  if b.state = CircuitState.open then
    match b.lastFailureTime with
    | some t =>
      if t ≠ 0 ∧ b.timeout < now - t then
        proceed { b with state := CircuitState.halfOpen, successCount := 0 }
      else (CallResult.rejected, b)
    | none => (CallResult.rejected, b)
  else proceed b

/-! ### Tool pipeline (tools/base.py) -/

/-- Python exceptions that can escape a tool's `execute`, split by
which `except` clause of `ToolBase.__call__` (base.py lines 141-155)
would catch them: pydantic's `ValidationError`, `DatabaseError` and its
subclasses, other `MCPException` subclasses (carrying
`type(e).__name__` and optional `details`), the
`(ValueError, TypeError, AttributeError, KeyError, RuntimeError)`
tuple, and `other` for any exception class none of the clauses catch. -/
inductive PyExc
  | pydanticValidation (msg details : String)
  | databaseError (msg : String) (details : Option String)
  | mcpException (typeName msg : String) (details : Option String)
  | valueError (msg : String)
  | typeError (msg : String)
  | attributeError (msg : String)
  | keyError (msg : String)
  | runtimeError (msg : String)
  | other (typeName msg : String)
deriving Repr, DecidableEq

/-- Does some `except` clause of `ToolBase.__call__` catch this
exception? -/
def PyExc.isCaught : PyExc → Bool
  | .other _ _ => false
  | _ => true

/-- Values stored in the response `metadata` dict. -/
inductive MVal
  | str (s : String)
  | bool (b : Bool)
  | num (q : ℚ)
deriving Repr, DecidableEq

/-- The `error` dict of an error response (`type`, `message`, and the
`details` key that is added only when details are truthy). -/
structure ErrorInfo where
  type : String
  message : String
  details : Option String
deriving Repr, DecidableEq

/-- A response envelope as built by `_format_response` /
`_format_error`: `success`, `data` (possibly `None`), the `metadata`
dict, and `error` (`None` on success). -/
structure Envelope (D : Type) where
  success : Bool
  data : Option D
  metadata : List (String × MVal)
  error : Option ErrorInfo
deriving Repr, DecidableEq

/-- `ToolBase._format_response` (base.py lines 157-180).  `ts` models
`datetime.now().isoformat()`. -/
def formatResponse (toolName ts : String) (data : Option D) (fromCache : Bool)
    (executionTimeMs : ℚ) : Envelope D :=
  { success := true
    data := data
    metadata := [("tool", MVal.str toolName), ("timestamp", MVal.str ts),
                 ("from_cache", MVal.bool fromCache),
                 ("execution_time_ms", MVal.num executionTimeMs)]
    error := none }

/-- `ToolBase._format_error` (base.py lines 182-211): note the metadata
has only `tool` and `timestamp` here. -/
def formatError (toolName ts errorType message : String) (details : Option String) :
    Envelope D :=
  { success := false
    data := none
    metadata := [("tool", MVal.str toolName), ("timestamp", MVal.str ts)]
    error := some { type := errorType, message := message, details := details } }

/-- Map a caught exception to the `_format_error` call of the matching
`except` clause; an uncaught exception propagates (`Except.error`). -/
def excToEnvelope (toolName ts : String) : PyExc → Except PyExc (Envelope D)
  | .pydanticValidation msg details =>
    Except.ok (formatError toolName ts "ValidationError" msg (some details))
  | .databaseError msg details =>
    Except.ok (formatError toolName ts "DatabaseError" msg details)
  | .mcpException typeName msg details =>
    Except.ok (formatError toolName ts typeName msg details)
  | .valueError msg => Except.ok (formatError toolName ts "UnknownError" msg none)
  | .typeError msg => Except.ok (formatError toolName ts "UnknownError" msg none)
  | .attributeError msg => Except.ok (formatError toolName ts "UnknownError" msg none)
  | .keyError msg => Except.ok (formatError toolName ts "UnknownError" msg none)
  | .runtimeError msg => Except.ok (formatError toolName ts "UnknownError" msg none)
  | .other typeName msg => Except.error (PyExc.other typeName msg)

/-- A concrete tool: its `name`, the pydantic schema constructor
(`validate`, raising = `Except.error (message, details)`), `model_dump`
of the validated params (`paramsDump`), and the abstract `execute` work
function, which returns data (possibly `None`) or raises. -/
structure ToolModel (P VP D : Type) where
  name : String
  validate : P → Except (String × String) VP
  paramsDump : VP → List (String × JVal)
  execute : VP → Except PyExc (Option D)

/-- `ToolBase.__call__` (base.py lines 99-155).  The cache stores
values of type `Option D` because a tool result may itself be `None`;
Python's `cache.get` returns the stored value directly, so a stored
`None` is indistinguishable from a miss — hence the `Option.join`.
Returns the propagated-or-enveloped result, the post-call cache state,
and whether `execute` was invoked.  `now`, `ts` and `durMs` model
`time.time()`, `datetime.now().isoformat()` and the measured
`execution_time` of this call. -/
def ToolModel.call (t : ToolModel P VP D) (p : P) (c : CacheService (Option D))
    (now : Int) (ts : String) (durMs : ℚ) :
    Except PyExc (Envelope D) × CacheService (Option D) × Bool :=
  match t.validate p with
  | Except.error e =>
    (Except.ok (formatError t.name ts "ValidationError" e.1 (some e.2)), c, false)
  | Except.ok vp =>
    let cacheKey := CacheService.generateKey t.name (t.paramsDump vp)
    let r1 := c.get cacheKey now
    match r1.1.join with
    | some d =>
      (Except.ok (formatResponse t.name ts (some d) true 0), r1.2, false)
    | none =>
      match t.execute vp with
      | Except.error e => (excToEnvelope t.name ts e, r1.2, true)
      | Except.ok result =>
        match r1.2.set cacheKey result now with
        | none =>
          -- cache.set raised StopIteration before mutating anything
          (Except.error (PyExc.other "StopIteration" ""), r1.2, true)
        | some c2 =>
          (Except.ok (formatResponse t.name ts result false durMs), c2, true)

end AgentFarm

namespace AgentFarm

/-! ### Lemmas about the dict model -/

theorem lookup_dictDelete_self (l : List (String × α)) (k : String) :
    (dictDelete l k).lookup k = none := by
  simp only [dictDelete, List.lookup_eq_none_iff]
  intro p hp
  have := List.of_mem_filter hp
  simpa [bne_iff_ne, ne_comm] using this

theorem lookup_dictDelete_ne (l : List (String × α)) (k k' : String) (h : k' ≠ k) :
    (dictDelete l k).lookup k' = l.lookup k' := by
  induction l with
  | nil => rfl
  | cons p l ih =>
    obtain ⟨pk, pv⟩ := p
    simp only [dictDelete, List.filter_cons] at ih ⊢
    by_cases hp : pk = k
    · have hb : (pk != k) = false := by simp [hp]
      have hk : (k' == pk) = false := by simp [hp, h]
      simp [hb, hk, List.lookup_cons, ih]
    · have hb : (pk != k) = true := by simp [hp]
      by_cases he : k' = pk
      · simp [hb, he, List.lookup_cons]
      · have hk : (k' == pk) = false := by simp [he]
        simp [hb, hk, List.lookup_cons, ih]

theorem lookup_map_replace_ne (l : List (String × α)) (k : String) (v : α)
    (k' : String) (h : k' ≠ k) :
    (l.map (fun p => if p.1 == k then (k, v) else p)).lookup k' = l.lookup k' := by
  induction l with
  | nil => rfl
  | cons p l ih =>
    obtain ⟨pk, pv⟩ := p
    by_cases hp : pk = k
    · have hrep : (if ((pk, pv).1 == k) = true then (k, v) else (pk, pv)) = (k, v) := by
        simp [hp]
      have h1 : (k' == k) = false := by simp [h]
      have h2 : (k' == pk) = false := by simp [hp, h]
      rw [List.map_cons, hrep, List.lookup_cons, List.lookup_cons]
      simp only [h1, h2]
      exact ih
    · have hrep : (if ((pk, pv).1 == k) = true then (k, v) else (pk, pv)) = (pk, pv) := by
        simp [hp]
      rw [List.map_cons, hrep, List.lookup_cons, List.lookup_cons]
      by_cases he : k' = pk
      · simp [he]
      · have h2 : (k' == pk) = false := by simp [he]
        simp only [h2]
        exact ih

theorem lookup_dictAssign_self (l : List (String × α)) (k : String) (v : α) :
    (dictAssign l k v).lookup k = some v := by
  unfold dictAssign
  by_cases hc : dictContains l k = true
  · simp only [hc, if_true]
    induction l with
    | nil => simp [dictContains] at hc
    | cons p l ih =>
      obtain ⟨pk, pv⟩ := p
      by_cases hp : pk = k
      · have hrep : (if ((pk, pv).1 == k) = true then (k, v) else (pk, pv)) = (k, v) := by
          simp [hp]
        rw [List.map_cons, hrep]
        simp
      · have hrep : (if ((pk, pv).1 == k) = true then (k, v) else (pk, pv)) = (pk, pv) := by
          simp [hp]
        have h2 : (k == pk) = false := by simp [Ne.symm hp]
        rw [List.map_cons, hrep, List.lookup_cons]
        simp only [h2]
        apply ih
        simpa [dictContains, List.lookup_cons, h2] using hc
  · have hcf : dictContains l k = false := by simpa using hc
    simp only [hcf, Bool.false_eq_true, if_false]
    have hn : l.lookup k = none := by
      rcases ho : l.lookup k with _ | w
      · rfl
      · exact absurd (by simp [dictContains, ho]) hc
    simp [List.lookup_append, hn]

theorem lookup_dictAssign_ne (l : List (String × α)) (k : String) (v : α)
    (k' : String) (h : k' ≠ k) :
    (dictAssign l k v).lookup k' = l.lookup k' := by
  unfold dictAssign
  by_cases hc : dictContains l k = true
  · simp only [hc, if_true]
    exact lookup_map_replace_ne l k v k' h
  · have hcf : dictContains l k = false := by simpa using hc
    have h1 : (k' == k) = false := by simp [h]
    simp only [hcf, Bool.false_eq_true, if_false, List.lookup_append, List.lookup_cons,
      List.lookup_nil, h1]
    rcases l.lookup k' with _ | w <;> rfl

theorem lookup_odMoveToEnd_self (l : List (String × α)) (k : String) :
    (odMoveToEnd l k).lookup k = l.lookup k := by
  unfold odMoveToEnd
  rcases h : l.lookup k with _ | v
  · exact h
  · simp [List.lookup_append, lookup_dictDelete_self]

theorem lookup_odMoveToEnd_ne (l : List (String × α)) (k k' : String) (h : k' ≠ k) :
    (odMoveToEnd l k).lookup k' = l.lookup k' := by
  unfold odMoveToEnd
  rcases hl : l.lookup k with _ | v
  · rfl
  · have h1 : (k' == k) = false := by simp [h]
    simp only [List.lookup_append, lookup_dictDelete_ne l k k' h, List.lookup_cons,
      List.lookup_nil, h1]
    rcases l.lookup k' with _ | w <;> rfl

end AgentFarm

namespace AgentFarm

/-! ### C2: circuit-breaker state machine -/

/-- C2.  With `failure_threshold = 3` and `success_threshold = 2`:
three consecutive failures starting Closed open the circuit; while Open
and within the timeout a call is rejected (`CircuitOpenError`, wrapped
function not invoked, state unchanged); after the timeout the call
proceeds through a HalfOpen state with `success_count` reset to 0; two
consecutive HalfOpen successes close the circuit with both counters
reset; one HalfOpen failure reopens it and records a new
`last_failure_time`. -/
theorem circuit_breaker_transitions :
    (∀ τ t1 t2 t3 : Int,
      (((((CircuitBreaker.init 3 τ 2).call t1 false).2.call t2 false).2.call t3 false).2).state
          = CircuitState.open ∧
      (((((CircuitBreaker.init 3 τ 2).call t1 false).2.call t2 false).2.call t3 false).2).lastFailureTime
          = some t3) ∧
    (∀ (b : CircuitBreaker) (now t : Int) (outcome : Bool),
      b.state = CircuitState.open → b.lastFailureTime = some t → t ≠ 0 →
      now - t ≤ b.timeout → b.call now outcome = (CallResult.rejected, b)) ∧
    (∀ (b : CircuitBreaker) (now t : Int),
      b.state = CircuitState.open → b.lastFailureTime = some t → t ≠ 0 →
      b.timeout < now - t →
      b.call now true = (CallResult.succeeded,
        CircuitBreaker.onSuccess { b with state := CircuitState.halfOpen, successCount := 0 }) ∧
      b.call now false = (CallResult.failed,
        CircuitBreaker.onFailure { b with state := CircuitState.halfOpen, successCount := 0 } now)) ∧
    (∀ (b : CircuitBreaker) (t1 t2 : Int),
      b.state = CircuitState.halfOpen → b.successCount = 0 → b.successThreshold = 2 →
      ((b.call t1 true).2.call t2 true).2.state = CircuitState.closed ∧
      ((b.call t1 true).2.call t2 true).2.failureCount = 0 ∧
      ((b.call t1 true).2.call t2 true).2.successCount = 0) ∧
    (∀ (b : CircuitBreaker) (now : Int),
      b.state = CircuitState.halfOpen →
      b.call now false = (CallResult.failed,
        { b with failureCount := b.failureCount + 1, lastFailureTime := some now,
                 state := CircuitState.open, successCount := 0 })) := by
  refine ⟨?_, ?_, ?_, ?_, ?_⟩
  · intro τ t1 t2 t3
    constructor <;> rfl
  · intro b now t outcome hs hl hz hle
    have hcond : ¬(t ≠ 0 ∧ b.timeout < now - t) := by
      rintro ⟨-, hgt⟩
      omega
    simp [CircuitBreaker.call, hs, hl, hcond]
  · intro b now t hs hl hz hgt
    have hcond : t ≠ 0 ∧ b.timeout < now - t := ⟨hz, hgt⟩
    constructor <;> simp [CircuitBreaker.call, hs, hl, hcond]
  · intro b t1 t2 hs hc hth
    refine ⟨?_, ?_, ?_⟩ <;>
      simp [CircuitBreaker.call, CircuitBreaker.onSuccess, hs, hc, hth]
  · intro b now hs
    simp [CircuitBreaker.call, CircuitBreaker.onFailure, hs]

/-- Witness for C2 at concrete breakers and times. -/
theorem circuit_breaker_transitions_witness :
    ((((CircuitBreaker.init 3 60 2).call 1 false).2.call 1 false).2.call 1 false).2.state
        = CircuitState.open ∧
    ((⟨3, 60, 2, 3, 0, some 10, CircuitState.open⟩ : CircuitBreaker).state = CircuitState.open ∧
      (20 : Int) - 10 ≤ 60 ∧
      (⟨3, 60, 2, 3, 0, some 10, CircuitState.open⟩ : CircuitBreaker).call 20 true
        = (CallResult.rejected, ⟨3, 60, 2, 3, 0, some 10, CircuitState.open⟩)) ∧
    ((60 : Int) < 100 - 10 ∧
      (⟨3, 60, 2, 3, 0, some 10, CircuitState.open⟩ : CircuitBreaker).call 100 false
        = (CallResult.failed,
            CircuitBreaker.onFailure ⟨3, 60, 2, 3, 0, some 10, CircuitState.halfOpen⟩ 100)) ∧
    ((⟨3, 60, 2, 0, 0, some 10, CircuitState.halfOpen⟩ : CircuitBreaker).state
          = CircuitState.halfOpen ∧
      (((⟨3, 60, 2, 0, 0, some 10, CircuitState.halfOpen⟩ : CircuitBreaker).call 1 true).2.call
            2 true).2.state = CircuitState.closed) ∧
    (⟨3, 60, 2, 0, 0, some 10, CircuitState.halfOpen⟩ : CircuitBreaker).call 5 false
        = (CallResult.failed, ⟨3, 60, 2, 1, 0, some 5, CircuitState.open⟩) := by
  refine ⟨(circuit_breaker_transitions.1 60 1 1 1).1, ⟨rfl, by decide, ?_⟩,
    ⟨by decide, ?_⟩, ⟨rfl, ?_⟩, ?_⟩
  · exact circuit_breaker_transitions.2.1 _ 20 10 true rfl rfl (by decide) (by decide)
  · exact (circuit_breaker_transitions.2.2.1 _ 100 10 rfl rfl (by decide) (by decide)).2
  · exact (circuit_breaker_transitions.2.2.2.1 _ 1 2 rfl rfl rfl).1
  · exact circuit_breaker_transitions.2.2.2.2 _ 5 rfl

end AgentFarm

namespace AgentFarm

/-! ### Lemmas about CacheService operations -/

theorem evict_fields (s : CacheService V) (k : String) :
    (s.evict k).enabled = s.enabled ∧ (s.evict k).config = s.config ∧
    (s.evict k).hits = s.hits ∧ (s.evict k).misses = s.misses := by
  unfold CacheService.evict
  split <;> simp

theorem get_fields (s : CacheService V) (k : String) (now : Int) :
    ((s.get k now).2.enabled = s.enabled) ∧ ((s.get k now).2.config = s.config) := by
  unfold CacheService.get
  split
  · simp
  · split
    · simp
    · split
      · simp [evict_fields]
      · simp

/-- The value returned by `get` is either `none` or exactly the stored
value. -/
theorem get_val (s : CacheService V) (k : String) (now : Int) :
    (s.get k now).1 = none ∨ (s.get k now).1 = s.cache.lookup k := by
  unfold CacheService.get
  split
  · exact Or.inl rfl
  · rename_i henb
    rcases hl : s.cache.lookup k with _ | v
    · simp [hl]
    · simp only [hl]
      split
      · simp
      · simp

/-- `set` succeeds (no `StopIteration`) whenever the cache is disabled
or `max_size ≥ 1`. -/
theorem set_isSome (s : CacheService V) (k : String) (v : V) (now : Int)
    (hsize : s.enabled = true → 1 ≤ s.config.maxSize) :
    ∃ s1, s.set k v now = some s1 := by
  unfold CacheService.set
  split
  · exact ⟨s, rfl⟩
  · rename_i henb
    have hen : s.enabled = true := by
      revert henb
      cases s.enabled <;> simp
    have hm := hsize hen
    split
    · rename_i hcond
      rcases hhd : s.cache.head? with _ | p
      · rw [List.head?_eq_none_iff] at hhd
        rw [hhd] at hcond
        simp at hcond
        omega
      · simp [hhd]
    · simp

/-- What `set` guarantees about the new state when it succeeds and the
cache is enabled. -/
theorem set_some_inv (s s1 : CacheService V) (k : String) (v : V) (now : Int)
    (hen : s.enabled = true) (hset : s.set k v now = some s1) :
    s1.cache.lookup k = some v ∧ s1.timestamps.lookup k = some now ∧
    s1.enabled = s.enabled ∧ s1.config = s.config ∧
    s1.hits = s.hits ∧ s1.misses = s.misses := by
  unfold CacheService.set at hset
  rw [if_neg (by simp [hen])] at hset
  have main : ∀ s' : CacheService V,
      s'.enabled = s.enabled → s'.config = s.config → s'.hits = s.hits → s'.misses = s.misses →
      s1 = { s' with cache := odMoveToEnd (dictAssign s'.cache k v) k,
                     timestamps := dictAssign s'.timestamps k now } →
      s1.cache.lookup k = some v ∧ s1.timestamps.lookup k = some now ∧
      s1.enabled = s.enabled ∧ s1.config = s.config ∧
      s1.hits = s.hits ∧ s1.misses = s.misses := by
    rintro s' h1 h2 h3 h4 rfl
    refine ⟨?_, ?_, h1, h2, h3, h4⟩
    · simp only [lookup_odMoveToEnd_self, lookup_dictAssign_self]
    · simp only [lookup_dictAssign_self]
  split at hset
  · rcases hhd : s.cache.head? with _ | p
    · rw [hhd] at hset
      simp at hset
    · rw [hhd] at hset
      simp only [Option.map_some', Option.some.injEq] at hset
      obtain he := evict_fields s p.1
      exact main (s.evict p.1) he.1 he.2.1 he.2.2.1 he.2.2.2 hset.symm
  · simp only [Option.map_some', Option.some.injEq] at hset
    exact main s rfl rfl rfl rfl hset.symm

end AgentFarm

namespace AgentFarm

/-! ### Concrete tool instances used in witnesses and counterexamples -/

/-- A minimal tool over unit parameter/data types with a fixed
validation result and a fixed `execute` outcome. -/
def testTool (val : Except (String × String) Unit) (exec : Except PyExc (Option Unit)) :
    ToolModel Unit Unit Unit :=
  { name := "t", validate := fun _ => val, paramsDump := fun _ => []
    execute := fun _ => exec }

/-- The default cache configuration (config.py defaults). -/
def cfgOn : CacheConfig := ⟨true, 100, 300⟩

/-- A freshly initialised enabled cache. -/
def emptyCache : CacheService (Option Unit) := CacheService.init (Option Unit) cfgOn

/-! ### C1: pipeline envelope totality -/

/-- C1 counterexample: a work function raising an exception class that
no `except` clause of `ToolBase.__call__` names (here
`ZeroDivisionError`) propagates out of the call instead of being
returned as an envelope. -/
theorem pipeline_envelope_totality_cex :
    ((testTool (Except.ok ()) (Except.error (PyExc.other "ZeroDivisionError" "division by zero"))).call
        () emptyCache 0 "ts" 0).1
      = Except.error (PyExc.other "ZeroDivisionError" "division by zero") := rfl

/-- C1 (amended).  The pipeline returns an envelope and raises nothing,
provided every exception the work function raises belongs to one of the
caught classes (pydantic `ValidationError`, `DatabaseError`,
`MCPException`, `ValueError`, `TypeError`, `AttributeError`, `KeyError`,
`RuntimeError`) and, when the cache is enabled, `max_size ≥ 1` (so
`cache.set` cannot raise `StopIteration`). -/
theorem pipeline_envelope_totality
    (t : ToolModel P VP D) (p : P) (c : CacheService (Option D))
    (now : Int) (ts : String) (durMs : ℚ)
    (hexec : ∀ vp e, t.execute vp = Except.error e → e.isCaught = true)
    (hsize : c.enabled = true → 1 ≤ c.config.maxSize) :
    ∃ env, (t.call p c now ts durMs).1 = Except.ok env := by
  unfold ToolModel.call
  rcases hval : t.validate p with e | vp
  · exact ⟨_, rfl⟩
  · simp only
    rcases hj : ((c.get (CacheService.generateKey t.name (t.paramsDump vp)) now).1).join
      with _ | d
    · simp only [hj]
      rcases hex : t.execute vp with e | result
      · have hc := hexec vp e hex
        cases e <;> simp only [excToEnvelope] <;> first
          | exact ⟨_, rfl⟩
          | (exfalso; simp [PyExc.isCaught] at hc)
      · have hsize2 : ((c.get (CacheService.generateKey t.name (t.paramsDump vp)) now).2).enabled = true →
            1 ≤ ((c.get (CacheService.generateKey t.name (t.paramsDump vp)) now).2).config.maxSize := by
          intro h
          have hf := get_fields c (CacheService.generateKey t.name (t.paramsDump vp)) now
          rw [hf.1] at h
          rw [hf.2]
          exact hsize h
        obtain ⟨s1, hs1⟩ := set_isSome _ (CacheService.generateKey t.name (t.paramsDump vp))
          result now hsize2
        simp only [hs1]
        exact ⟨_, rfl⟩
    · simp only [hj]
      exact ⟨_, rfl⟩

/-- Witness for C1 at a tool whose work function raises
`RuntimeError`. -/
theorem pipeline_envelope_totality_witness :
    (∀ (vp : Unit) (e : PyExc),
        (testTool (Except.ok ()) (Except.error (PyExc.runtimeError "boom"))).execute vp
          = Except.error e → e.isCaught = true) ∧
    (emptyCache.enabled = true → 1 ≤ emptyCache.config.maxSize) ∧
    ∃ env, ((testTool (Except.ok ()) (Except.error (PyExc.runtimeError "boom"))).call
        () emptyCache 0 "ts" 0).1 = Except.ok env := by
  have hexec : ∀ (vp : Unit) (e : PyExc),
      (testTool (Except.ok ()) (Except.error (PyExc.runtimeError "boom"))).execute vp
        = Except.error e → e.isCaught = true := by
    intro vp e h
    have h' : Except.error (PyExc.runtimeError "boom") = (Except.error e : Except PyExc (Option Unit)) := h
    injection h' with h2
    rw [← h2]
    rfl
  exact ⟨hexec, fun _ => by decide,
    pipeline_envelope_totality _ () emptyCache 0 "ts" 0 hexec (fun _ => by decide)⟩

end AgentFarm

namespace AgentFarm

/-! ### C8: validation failure precedes any cache interaction -/

/-- C8.  When parameter validation fails, `ToolBase.__call__` returns a
`ValidationError` envelope with `success = false`, the cache state is
returned exactly as it was (no key generated, no `get`/`set`, counters
and entries untouched), and `execute` is not invoked. -/
theorem validation_error_no_cache_interaction
    (t : ToolModel P VP D) (p : P) (c : CacheService (Option D))
    (now : Int) (ts : String) (durMs : ℚ) (msg details : String)
    (hval : t.validate p = Except.error (msg, details)) :
    t.call p c now ts durMs
        = (Except.ok (formatError t.name ts "ValidationError" msg (some details)), c, false) ∧
    (formatError t.name ts "ValidationError" msg (some details) : Envelope D).success = false ∧
    (formatError t.name ts "ValidationError" msg (some details) : Envelope D).error
        = some ⟨"ValidationError", msg, some details⟩ := by
  refine ⟨?_, rfl, rfl⟩
  unfold ToolModel.call
  rw [hval]

/-- Witness for C8 at a concrete always-invalid tool and the fresh
cache. -/
theorem validation_error_no_cache_interaction_witness :
    (testTool (Except.error ("bad params", "details")) (Except.ok none)).validate ()
        = Except.error ("bad params", "details") ∧
    (testTool (Except.error ("bad params", "details")) (Except.ok none)).call
        () emptyCache 0 "ts" 0
      = (Except.ok (formatError "t" "ts" "ValidationError" "bad params" (some "details")),
         emptyCache, false) := by
  refine ⟨rfl, ?_⟩
  exact (validation_error_no_cache_interaction _ () emptyCache 0 "ts" 0 "bad params" "details"
    rfl).1

/-! ### C7: envelope metadata shape -/

/-- C7 counterexample: the envelope returned for a failed call (here a
validation failure) has no `from_cache` key in its metadata —
`_format_error` only writes `tool` and `timestamp` — contradicting the
claim that every envelope's metadata carries `fromCache` and
`durationMs`. -/
theorem envelope_metadata_cex :
    (((testTool (Except.error ("bad", "det")) (Except.ok none)).call () emptyCache 0 "ts" 0).1.map
        (fun env => dictContains env.metadata "from_cache")) = Except.ok false := rfl

/-- C7 (amended).  Every envelope the pipeline returns has `success`,
`data`, `error` and a metadata dict with the tool name and timestamp;
success envelopes additionally carry `from_cache` and
`execution_time_ms`, and have `error = None`; failure envelopes have
`data = None` and a populated `error`; but failure metadata carries
only `tool` and `timestamp`. -/
theorem envelope_metadata_shape
    (t : ToolModel P VP D) (p : P) (c : CacheService (Option D))
    (now : Int) (ts : String) (durMs : ℚ) (env : Envelope D)
    (h : (t.call p c now ts durMs).1 = Except.ok env) :
    env.metadata.lookup "tool" = some (MVal.str t.name) ∧
    env.metadata.lookup "timestamp" = some (MVal.str ts) ∧
    (env.success = true →
      (env.metadata.lookup "from_cache" = some (MVal.bool true) ∨
       env.metadata.lookup "from_cache" = some (MVal.bool false)) ∧
      (∃ q, env.metadata.lookup "execution_time_ms" = some (MVal.num q)) ∧
      env.error = none) ∧
    (env.success = false →
      env.data = none ∧ env.error.isSome = true ∧
      env.metadata.map Prod.fst = ["tool", "timestamp"]) := by
  have hresp : ∀ (d : Option D) (fc : Bool) (q : ℚ),
      env = formatResponse t.name ts d fc q →
      env.metadata.lookup "tool" = some (MVal.str t.name) ∧
      env.metadata.lookup "timestamp" = some (MVal.str ts) ∧
      (env.success = true →
        (env.metadata.lookup "from_cache" = some (MVal.bool true) ∨
         env.metadata.lookup "from_cache" = some (MVal.bool false)) ∧
        (∃ q', env.metadata.lookup "execution_time_ms" = some (MVal.num q')) ∧
        env.error = none) ∧
      (env.success = false →
        env.data = none ∧ env.error.isSome = true ∧
        env.metadata.map Prod.fst = ["tool", "timestamp"]) := by
    rintro d fc q rfl
    refine ⟨rfl, rfl, fun _ => ⟨?_, ⟨q, rfl⟩, rfl⟩, fun hf => by simp [formatResponse] at hf⟩
    cases fc
    · exact Or.inr rfl
    · exact Or.inl rfl
  have herr : ∀ (et m : String) (det : Option String),
      env = formatError t.name ts et m det →
      env.metadata.lookup "tool" = some (MVal.str t.name) ∧
      env.metadata.lookup "timestamp" = some (MVal.str ts) ∧
      (env.success = true →
        (env.metadata.lookup "from_cache" = some (MVal.bool true) ∨
         env.metadata.lookup "from_cache" = some (MVal.bool false)) ∧
        (∃ q', env.metadata.lookup "execution_time_ms" = some (MVal.num q')) ∧
        env.error = none) ∧
      (env.success = false →
        env.data = none ∧ env.error.isSome = true ∧
        env.metadata.map Prod.fst = ["tool", "timestamp"]) := by
    rintro et m det rfl
    exact ⟨rfl, rfl, fun ht => by simp [formatError] at ht, fun _ => ⟨rfl, rfl, rfl⟩⟩
  unfold ToolModel.call at h
  rcases hval : t.validate p with e | vp <;> rw [hval] at h
  · exact herr _ _ _ (by injection h with h2; exact h2.symm)
  · simp only at h
    rcases hj : ((c.get (CacheService.generateKey t.name (t.paramsDump vp)) now).1).join
      with _ | d <;> simp only [hj] at h
    · rcases hex : t.execute vp with e | result <;> simp only [hex] at h
      · cases e <;> simp only [excToEnvelope] at h <;> first
          | exact herr _ _ _ (by injection h with h2; exact h2.symm)
          | cases h
      · rcases hset : ((c.get (CacheService.generateKey t.name (t.paramsDump vp)) now).2).set
            (CacheService.generateKey t.name (t.paramsDump vp)) result now with _ | c2 <;>
          simp only [hset] at h
        · cases h
        · exact hresp _ _ _ (by injection h with h2; exact h2.symm)
    · exact hresp _ _ _ (by injection h with h2; exact h2.symm)

/-- Witness for C7 at a concrete failing call (validation error). -/
theorem envelope_metadata_shape_witness :
    ((testTool (Except.error ("bad", "det")) (Except.ok none)).call () emptyCache 0 "ts" 0).1
        = Except.ok (formatError "t" "ts" "ValidationError" "bad" (some "det")) ∧
    (formatError "t" "ts" "ValidationError" "bad" (some "det") : Envelope Unit).metadata.lookup
        "tool" = some (MVal.str "t") := by
  refine ⟨rfl, ?_⟩
  exact (envelope_metadata_shape (testTool (Except.error ("bad", "det")) (Except.ok none))
    () emptyCache 0 "ts" 0 _ rfl).1

end AgentFarm

namespace AgentFarm

/-! ### C10: a `None` tool result is stored but never served from cache -/

/-- C10.  If the work function returns `None`, the hit branch of
`ToolBase.__call__` (which requires `cached_result is not None`) can
never fire for that key: the call stores `None` via `cache.set`, invokes
`execute`, and returns `from_cache = false` — and the resulting cache
state again maps the key to `None` (with `enabled`/config preserved), so
the same holds for every repeated call with identical parameters. -/
theorem none_result_never_from_cache
    (t : ToolModel P VP D) (p : P) (vp : VP) (c : CacheService (Option D))
    (now : Int) (ts : String) (durMs : ℚ)
    (hval : t.validate p = Except.ok vp)
    (hexec : t.execute vp = Except.ok none)
    (hen : c.enabled = true)
    (hsize : 1 ≤ c.config.maxSize)
    (hstored : c.cache.lookup (CacheService.generateKey t.name (t.paramsDump vp)) = none ∨
        c.cache.lookup (CacheService.generateKey t.name (t.paramsDump vp)) = some none) :
    ∃ c2, t.call p c now ts durMs
        = (Except.ok (formatResponse t.name ts none false durMs), c2, true) ∧
      c2.cache.lookup (CacheService.generateKey t.name (t.paramsDump vp)) = some none ∧
      c2.enabled = true ∧ c2.config = c.config := by
  have hj : ((c.get (CacheService.generateKey t.name (t.paramsDump vp)) now).1).join = none := by
    rcases get_val c (CacheService.generateKey t.name (t.paramsDump vp)) now with h | h
    · rw [h]
      rfl
    · rw [h]
      rcases hstored with h2 | h2 <;> rw [h2] <;> rfl
  have hf := get_fields c (CacheService.generateKey t.name (t.paramsDump vp)) now
  obtain ⟨c2, hc2⟩ := set_isSome
    ((c.get (CacheService.generateKey t.name (t.paramsDump vp)) now).2)
    (CacheService.generateKey t.name (t.paramsDump vp)) none now
    (fun _ => by rw [hf.2]; exact hsize)
  have hen2 : ((c.get (CacheService.generateKey t.name (t.paramsDump vp)) now).2).enabled = true := by
    rw [hf.1]; exact hen
  have hinv := set_some_inv _ c2 (CacheService.generateKey t.name (t.paramsDump vp)) none now
    hen2 hc2
  refine ⟨c2, ?_, hinv.1, ?_, ?_⟩
  · unfold ToolModel.call
    rw [hval]
    simp only [hj, hexec, hc2]
  · rw [hinv.2.2.1, hf.1]
    exact hen
  · rw [hinv.2.2.2.1, hf.2]

/-- Witness for C10: a tool whose `execute` returns `None`, called on
the fresh cache. -/
theorem none_result_never_from_cache_witness :
    (testTool (Except.ok ()) (Except.ok none)).validate () = Except.ok () ∧
    (testTool (Except.ok ()) (Except.ok none)).execute () = Except.ok none ∧
    emptyCache.enabled = true ∧ 1 ≤ emptyCache.config.maxSize ∧
    emptyCache.cache.lookup
        (CacheService.generateKey "t" []) = none ∧
    ∃ c2, (testTool (Except.ok ()) (Except.ok none)).call () emptyCache 0 "ts" 0
        = (Except.ok (formatResponse "t" "ts" none false 0), c2, true) := by
  refine ⟨rfl, rfl, rfl, by decide, rfl, ?_⟩
  obtain ⟨c2, hc2, -, -, -⟩ := none_result_never_from_cache
    (testTool (Except.ok ()) (Except.ok none)) () () emptyCache 0 "ts" 0
    rfl rfl rfl (by decide) (Or.inl rfl)
  exact ⟨c2, hc2⟩

end AgentFarm

namespace AgentFarm

/-! ### C4: TTL correctness -/

/-- C4.  After `set key v` at time `now0` on an enabled cache with
`ttl = t > 0`: a `get` at `now1` with age `now1 - now0 ≤ t` returns the
value (a hit); a `get` with age `> t` reports not-found, evicts the
entry as a side effect, and increments the miss counter.  And on any
enabled cache with `ttl_seconds = 0`, no present entry ever expires by
time: `get` returns the stored value at every `now`. -/
theorem ttl_correctness
    (s s1 : CacheService V) (key : String) (v : V) (now0 now1 : Int)
    (hen : s.enabled = true)
    (hset : s.set key v now0 = some s1) :
    (0 < s.config.ttlSeconds → now1 - now0 ≤ s.config.ttlSeconds →
      (s1.get key now1).1 = some v ∧ (s1.get key now1).2.hits = s1.hits + 1) ∧
    (0 < s.config.ttlSeconds → s.config.ttlSeconds < now1 - now0 →
      (s1.get key now1).1 = none ∧
      (s1.get key now1).2.cache.lookup key = none ∧
      (s1.get key now1).2.misses = s1.misses + 1) ∧
    (∀ (s' : CacheService V) (k : String) (w : V) (now' : Int),
      s'.enabled = true → s'.config.ttlSeconds = 0 →
      s'.cache.lookup k = some w → (s'.get k now').1 = some w) := by
  obtain ⟨hcl, htl, henb, hcfg, -, -⟩ := set_some_inv s s1 key v now0 hen hset
  have hen1 : s1.enabled = true := by rw [henb]; exact hen
  have hne : (s1.enabled = false) = False := by simp [hen1]
  refine ⟨?_, ?_, ?_⟩
  · intro hpos hle
    have hcond : ¬(0 < s1.config.ttlSeconds ∧
        s1.config.ttlSeconds < now1 - (s1.timestamps.lookup key).getD 0) := by
      rw [hcfg, htl]
      rintro ⟨-, hgt⟩
      simp only [Option.getD_some] at hgt
      omega
    constructor <;> simp [CacheService.get, hne, hcl, hcond]
  · intro hpos hgt
    have hcond : 0 < s1.config.ttlSeconds ∧
        s1.config.ttlSeconds < now1 - (s1.timestamps.lookup key).getD 0 := by
      rw [hcfg, htl]
      simpa using ⟨hpos, hgt⟩
    have hcontains : dictContains s1.cache key = true := by
      simp [dictContains, hcl]
    refine ⟨?_, ?_, ?_⟩ <;>
      simp [CacheService.get, hne, hcl, hcond, CacheService.evict, hcontains,
        lookup_dictDelete_self]
  · intro s' k w now' hen' httl hlk
    have hne' : (s'.enabled = false) = False := by simp [hen']
    have hcond : ¬(0 < s'.config.ttlSeconds ∧
        s'.config.ttlSeconds < now' - (s'.timestamps.lookup k).getD 0) := by
      rw [httl]
      rintro ⟨h0, -⟩
      omega
    simp [CacheService.get, hne', hlk, hcond]

/-- Witness for C4 at a concrete cache with `ttl = 300`. -/
theorem ttl_correctness_witness :
    (CacheService.init Nat ⟨true, 100, 300⟩).enabled = true ∧
    (CacheService.init Nat ⟨true, 100, 300⟩).set "k" 5 0
      = some ⟨⟨true, 100, 300⟩, true, [("k", 5)], [("k", 0)], 0, 0⟩ ∧
    ((⟨⟨true, 100, 300⟩, true, [("k", 5)], [("k", 0)], 0, 0⟩ : CacheService Nat).get "k" 100).1
      = some 5 ∧
    ((⟨⟨true, 100, 300⟩, true, [("k", 5)], [("k", 0)], 0, 0⟩ : CacheService Nat).get "k" 400).1
      = none ∧
    ((⟨⟨true, 100, 0⟩, true, [("k", 7)], [("k", 0)], 0, 0⟩ : CacheService Nat).get "k"
        1000000000).1 = some 7 := by
  have hset : (CacheService.init Nat ⟨true, 100, 300⟩).set "k" 5 0
      = some ⟨⟨true, 100, 300⟩, true, [("k", 5)], [("k", 0)], 0, 0⟩ := rfl
  have h := ttl_correctness (CacheService.init Nat ⟨true, 100, 300⟩)
    ⟨⟨true, 100, 300⟩, true, [("k", 5)], [("k", 0)], 0, 0⟩ "k" 5 0 100 rfl hset
  have h2 := ttl_correctness (CacheService.init Nat ⟨true, 100, 300⟩)
    ⟨⟨true, 100, 300⟩, true, [("k", 5)], [("k", 0)], 0, 0⟩ "k" 5 0 400 rfl hset
  refine ⟨rfl, hset, (h.1 (by decide) (by decide)).1, (h2.2.1 (by decide) (by decide)).1, ?_⟩
  exact h.2.2 ⟨⟨true, 100, 0⟩, true, [("k", 7)], [("k", 0)], 0, 0⟩ "k" 7 1000000000
    rfl rfl (by decide)

end AgentFarm

namespace AgentFarm

/-! ### C6: hit/miss statistics invariant -/

/-- One public cache call, with its ambient `time.time()` value. -/
inductive CacheOp (V : Type)
  | get (k : String) (now : Int)
  | set (k : String) (v : V) (now : Int)
  | clear
deriving Repr

/-- Apply one call to the cache (a `set` may raise, hence `Option`). -/
def applyOp (s : CacheService V) : CacheOp V → Option (CacheService V)
  | .get k now => some (s.get k now).2
  | .set k v now => s.set k v now
  | .clear => some s.clear

/-- Run a sequence of calls left to right. -/
def runOps (s : CacheService V) : List (CacheOp V) → Option (CacheService V)
  | [] => some s
  | op :: rest => (applyOp s op).bind (fun s1 => runOps s1 rest)

/-- How one call changes the number of counted `get` calls since the
last `clear`: `get` adds one, `set` changes nothing, `clear` resets. -/
def opCount (g : Nat) : CacheOp V → Nat
  | .get _ _ => g + 1
  | .set _ _ _ => g
  | .clear => 0

/-- Number of `get` calls since the most recent `clear` (starting from
`g` already counted). -/
def getCount (g : Nat) (ops : List (CacheOp V)) : Nat :=
  ops.foldl opCount g

theorem get_counters (s : CacheService V) (k : String) (now : Int)
    (hen : s.enabled = true) :
    (s.get k now).2.hits + (s.get k now).2.misses = s.hits + s.misses + 1 := by
  rcases hl : s.cache.lookup k with _ | v
  · simp [CacheService.get, hen, hl]
    omega
  · by_cases hc : 0 < s.config.ttlSeconds ∧
        s.config.ttlSeconds < now - (s.timestamps.lookup k).getD 0
    · have he := evict_fields s k
      simp [CacheService.get, hen, hl, hc, he.2.2.1, he.2.2.2]
      omega
    · simp [CacheService.get, hen, hl, hc]
      omega

theorem applyOp_counters (s s1 : CacheService V) (op : CacheOp V)
    (hen : s.enabled = true) (happ : applyOp s op = some s1) :
    s1.enabled = true ∧
    s1.hits + s1.misses = opCount (s.hits + s.misses) op := by
  rcases op with ⟨k, now⟩ | ⟨k, v, now⟩ | _
  · simp only [applyOp, Option.some.injEq] at happ
    subst happ
    exact ⟨by rw [(get_fields s k now).1]; exact hen, get_counters s k now hen⟩
  · simp only [applyOp] at happ
    obtain ⟨-, -, henb, -, hh, hm⟩ := set_some_inv s s1 k v now hen happ
    rw [henb, hh, hm]
    exact ⟨hen, rfl⟩
  · simp only [applyOp, Option.some.injEq] at happ
    subst happ
    exact ⟨hen, rfl⟩

/-- C6 (amended).  For any sequence of `get`/`set`/`clear` calls on an
enabled cache that runs to completion, `hits + misses` afterwards equals
the number of `get` calls since the most recent `clear` (counting from
the starting totals), and `get_stats` reports
`hit_rate = hits/(hits+misses)` when the total is positive and `0`
otherwise.  (On a disabled cache `get` returns early without counting a
miss, so the claim as stated, over every enabled/disabled configuration,
fails — see the counterexample.) -/
theorem stats_invariant (ops : List (CacheOp V)) (s s' : CacheService V)
    (hen : s.enabled = true) (hrun : runOps s ops = some s') :
    s'.hits + s'.misses = getCount (s.hits + s.misses) ops ∧
    (s'.getStats).hitRate =
      (if 0 < s'.hits + s'.misses then (s'.hits : ℚ) / ((s'.hits + s'.misses : Nat) : ℚ)
       else 0) := by
  refine ⟨?_, rfl⟩
  induction ops generalizing s with
  | nil =>
    simp only [runOps, Option.some.injEq] at hrun
    subst hrun
    rfl
  | cons op rest ih =>
    simp only [runOps] at hrun
    rcases happ : applyOp s op with _ | s1
    · rw [happ] at hrun
      cases hrun
    · rw [happ] at hrun
      simp only [Option.some_bind] at hrun
      obtain ⟨hen1, hcnt⟩ := applyOp_counters s s1 op hen happ
      have hrest := ih s1 hen1 hrun
      rw [hrest, getCount, getCount, List.foldl_cons, ← hcnt]

/-- C6 counterexample: on a disabled cache a `get` call does not touch
the counters at all, so after one `get` the counter sum is 0 while the
number of `get` calls since construction is 1. -/
theorem stats_invariant_cex :
    (runOps (CacheService.init Nat ⟨false, 100, 300⟩) [CacheOp.get "k" 0]).map
        (fun s' => s'.hits + s'.misses) = some 0 ∧
    getCount 0 [(CacheOp.get "k" 0 : CacheOp Nat)] = 1 := ⟨rfl, rfl⟩

/-- Witness for C6 on a concrete enabled cache and call sequence
(a miss, a set, a hit, a clear, then one more miss). -/
theorem stats_invariant_witness :
    (CacheService.init Nat ⟨true, 100, 0⟩).enabled = true ∧
    runOps (CacheService.init Nat ⟨true, 100, 0⟩)
        [CacheOp.get "a" 0, CacheOp.set "a" 1 0, CacheOp.get "a" 1, CacheOp.clear,
         CacheOp.get "b" 2]
      = some ⟨⟨true, 100, 0⟩, true, [], [], 0, 1⟩ ∧
    (0 : Nat) + 1 = getCount ((CacheService.init Nat ⟨true, 100, 0⟩).hits +
        (CacheService.init Nat ⟨true, 100, 0⟩).misses)
      [CacheOp.get "a" 0, CacheOp.set "a" (1 : Nat) 0, CacheOp.get "a" 1, CacheOp.clear,
       CacheOp.get "b" 2] := by
  have hrun : runOps (CacheService.init Nat ⟨true, 100, 0⟩)
      [CacheOp.get "a" 0, CacheOp.set "a" 1 0, CacheOp.get "a" 1, CacheOp.clear,
       CacheOp.get "b" 2]
      = some ⟨⟨true, 100, 0⟩, true, [], [], 0, 1⟩ := rfl
  refine ⟨rfl, hrun, ?_⟩
  exact (stats_invariant _ _ _ rfl hrun).1

end AgentFarm

namespace AgentFarm

/-! ### C3: LRU eviction order -/

/-- Run a sequence of `set` calls (same ambient time for all). -/
def setAll (now : Int) (s : CacheService V) : List (String × V) → Option (CacheService V)
  | [] => some s
  | p :: rest => (s.set p.1 p.2 now).bind (fun s1 => setAll now s1 rest)

theorem lookup_eq_none_of_not_mem_keys (l : List (String × α)) (k : String)
    (h : k ∉ l.map Prod.fst) : l.lookup k = none := by
  rw [List.lookup_eq_none_iff]
  intro p hp
  simp only [bne_iff_ne, ne_eq]
  intro hk
  exact h (hk ▸ List.mem_map_of_mem Prod.fst hp)

theorem dictDelete_of_lookup_none (l : List (String × α)) (k : String)
    (h : l.lookup k = none) : dictDelete l k = l := by
  rw [List.lookup_eq_none_iff] at h
  unfold dictDelete
  apply List.filter_eq_self.mpr
  intro p hp
  have := h p hp
  simpa [bne_iff_ne, ne_comm] using this

theorem odMoveToEnd_append_last (l : List (String × α)) (k : String) (v : α)
    (h : l.lookup k = none) : odMoveToEnd (l ++ [(k, v)]) k = l ++ [(k, v)] := by
  unfold odMoveToEnd
  rw [List.lookup_append, h, Option.none_or, List.lookup_cons_self]
  unfold dictDelete
  rw [List.filter_append, ← dictDelete, ← dictDelete, dictDelete_of_lookup_none l k h]
  simp [dictDelete]

theorem lookup_of_mem_nodupKeys (l : List (String × α)) (k : String) (v : α)
    (hnd : (l.map Prod.fst).Nodup) (hm : (k, v) ∈ l) : l.lookup k = some v := by
  induction l with
  | nil => cases hm
  | cons q l ih =>
    obtain ⟨qk, qv⟩ := q
    simp only [List.map_cons, List.nodup_cons] at hnd
    rcases List.mem_cons.mp hm with heq | hmem
    · obtain ⟨rfl, rfl⟩ := Prod.mk.injEq .. ▸ heq
      simp
    · have hk : k ≠ qk := by
        rintro rfl
        exact hnd.1 (List.mem_map_of_mem Prod.fst hmem)
      have hb : (k == qk) = false := by simp [hk]
      rw [List.lookup_cons]
      simp only [hb]
      exact ih hnd.2 hmem

theorem mem_dictDelete (l : List (String × α)) (k : String) (p : String × α)
    (h : p ∈ dictDelete l k) : p ∈ l ∧ p.1 ≠ k := by
  unfold dictDelete at h
  refine ⟨List.mem_of_mem_filter h, ?_⟩
  have := List.of_mem_filter h
  simpa [bne_iff_ne] using this

theorem dictDelete_length_of_mem (l : List (String × α)) (k : String) (v : α)
    (hnd : (l.map Prod.fst).Nodup) (hm : (k, v) ∈ l) :
    (dictDelete l k).length + 1 = l.length := by
  induction l with
  | nil => cases hm
  | cons q l ih =>
    obtain ⟨qk, qv⟩ := q
    simp only [List.map_cons, List.nodup_cons] at hnd
    rcases List.mem_cons.mp hm with heq | hmem
    · obtain ⟨rfl, rfl⟩ := Prod.mk.injEq .. ▸ heq
      simp only [dictDelete, List.filter_cons, bne_self_eq_false, Bool.false_eq_true, if_false]
      rw [← dictDelete, dictDelete_of_lookup_none l k
        (lookup_eq_none_of_not_mem_keys l k hnd.1), List.length_cons]
    · have hk : qk ≠ k := by
        rintro rfl
        exact hnd.1 (List.mem_map_of_mem Prod.fst hmem)
      have hb : (qk != k) = true := by simp [hk]
      simp only [dictDelete, List.filter_cons, hb, if_true, List.length_cons]
      rw [← dictDelete, ih hnd.2 hmem]

theorem keys_dictDelete_sublist (l : List (String × α)) (k : String) :
    ((dictDelete l k).map Prod.fst).Sublist (l.map Prod.fst) :=
  (List.filter_sublist l).map Prod.fst

theorem setAll_append (now : Int) (s : CacheService V) (A B : List (String × V)) :
    setAll now s (A ++ B) = (setAll now s A).bind (fun s1 => setAll now s1 B) := by
  induction A generalizing s with
  | nil => simp [setAll]
  | cons p A ih =>
    simp only [List.cons_append, setAll]
    rcases s.set p.1 p.2 now with _ | s1
    · rfl
    · simp only [Option.some_bind]
      exact ih s1

end AgentFarm

namespace AgentFarm

/-- Filling an enabled cache that has room for all of `L`'s fresh keys
appends them in order, leaves counters and config alone, and stamps each
new key with `now`. -/
theorem setAll_fill (L : List (String × V)) (s : CacheService V) (now : Int)
    (hen : s.enabled = true)
    (hlen : s.cache.length + L.length ≤ s.config.maxSize)
    (hnd : (s.cache.map Prod.fst ++ L.map Prod.fst).Nodup) :
    ∃ s1, setAll now s L = some s1 ∧
      s1.cache = s.cache ++ L ∧
      s1.config = s.config ∧ s1.enabled = s.enabled ∧
      s1.hits = s.hits ∧ s1.misses = s.misses ∧
      (∀ k, s1.timestamps.lookup k =
        if (L.map Prod.fst).contains k then some now else s.timestamps.lookup k) := by
  induction L generalizing s with
  | nil =>
    exact ⟨s, rfl, by simp, rfl, rfl, rfl, rfl, fun k => by simp⟩
  | cons p rest ih =>
    obtain ⟨pk, pv⟩ := p
    have hfresh : s.cache.lookup pk = none := by
      apply lookup_eq_none_of_not_mem_keys
      intro hmem
      rcases List.nodup_append.mp hnd with ⟨-, -, hdisj⟩
      exact hdisj hmem (by simp)
    have hcond : ¬(s.config.maxSize ≤ s.cache.length ∧ dictContains s.cache pk = false) := by
      rintro ⟨h1, -⟩
      simp only [List.length_cons] at hlen
      omega
    have hset : s.set pk pv now = some
        { s with cache := s.cache ++ [(pk, pv)]
                 timestamps := dictAssign s.timestamps pk now } := by
      unfold CacheService.set
      rw [if_neg (by simp [hen]), if_neg hcond]
      simp only [Option.map_some', Option.some.injEq]
      have hassign : dictAssign s.cache pk pv = s.cache ++ [(pk, pv)] := by
        unfold dictAssign
        rw [if_neg (by simp [dictContains, hfresh])]
      rw [hassign, odMoveToEnd_append_last s.cache pk pv hfresh]
    set s2 : CacheService V :=
      { s with cache := s.cache ++ [(pk, pv)]
               timestamps := dictAssign s.timestamps pk now } with hs2
    have hnd2 : (s2.cache.map Prod.fst ++ rest.map Prod.fst).Nodup := by
      simp only [hs2, List.map_append, List.map_cons, List.map_nil, List.append_assoc,
        List.singleton_append]
      simpa using hnd
    have hlen2 : s2.cache.length + rest.length ≤ s2.config.maxSize := by
      simp only [hs2, List.length_append, List.length_cons, List.length_nil]
      simp only [List.length_cons] at hlen
      omega
    obtain ⟨s1, hrun, hcache, hcfg, henb, hh, hm, hts⟩ := ih s2 hen hlen2 hnd2
    refine ⟨s1, ?_, ?_, hcfg, henb, hh, hm, ?_⟩
    · simp only [setAll, hset, Option.some_bind]
      exact hrun
    · rw [hcache]
      simp [hs2]
    · intro k
      rw [hts k]
      simp only [hs2, List.map_cons]
      by_cases hkr : (rest.map Prod.fst).contains k = true
      · rw [if_pos hkr, if_pos (by rw [List.contains_cons, hkr, Bool.or_true])]
      · have hkrf : (rest.map Prod.fst).contains k = false := by simpa using hkr
        rw [if_neg (by rw [hkrf]; simp)]
        by_cases hkp : k = pk
        · subst hkp
          rw [lookup_dictAssign_self,
            if_pos (by rw [List.contains_cons, beq_self_eq_true, Bool.true_or])]
        · rw [lookup_dictAssign_ne s.timestamps pk now k hkp,
            if_neg (by rw [List.contains_cons, hkrf]; simp [hkp])]

end AgentFarm

namespace AgentFarm

/-- A `set` of a fresh key on a full enabled cache evicts exactly the
front (least-recently-used) entry and appends the new binding at the
most-recent end. -/
theorem set_evicts_head (s : CacheService V) (hd : String × V) (T : List (String × V))
    (qk : String) (qv : V) (now : Int)
    (hen : s.enabled = true)
    (hcache : s.cache = hd :: T)
    (hfull : s.config.maxSize ≤ s.cache.length)
    (hndk : ((hd :: T).map Prod.fst).Nodup)
    (hq : qk ∉ ((hd :: T).map Prod.fst)) :
    ∃ s2, s.set qk qv now = some s2 ∧ s2.cache = T ++ [(qk, qv)] ∧
      s2.config = s.config ∧ s2.enabled = s.enabled ∧
      s2.hits = s.hits ∧ s2.misses = s.misses := by
  have hlkq : s.cache.lookup qk = none := by
    rw [hcache]
    exact lookup_eq_none_of_not_mem_keys _ qk hq
  have hqT : qk ∉ T.map Prod.fst := fun hm => hq (List.mem_cons_of_mem _ hm)
  have hhdT : hd.1 ∉ T.map Prod.fst := by
    simp only [List.map_cons, List.nodup_cons] at hndk
    exact hndk.1
  have hdelT : dictDelete (hd :: T) hd.1 = T := by
    obtain ⟨hk, hv⟩ := hd
    simp only [dictDelete, List.filter_cons, bne_self_eq_false, Bool.false_eq_true, if_false]
    rw [← dictDelete]
    exact dictDelete_of_lookup_none T hk (lookup_eq_none_of_not_mem_keys T hk hhdT)
  have hcond : s.config.maxSize ≤ s.cache.length ∧ dictContains s.cache qk = false :=
    ⟨hfull, by simp [dictContains, hlkq]⟩
  have hcontains : dictContains s.cache hd.1 = true := by
    rw [hcache]
    obtain ⟨hk, hv⟩ := hd
    simp [dictContains]
  have hassign : dictAssign T qk qv = T ++ [(qk, qv)] := by
    unfold dictAssign
    rw [if_neg (by simp [dictContains,
      lookup_eq_none_of_not_mem_keys T qk hqT])]
  have hevict : s.evict hd.1 = { s with cache := T
                                        timestamps := dictDelete s.timestamps hd.1 } := by
    unfold CacheService.evict
    rw [if_pos hcontains, hcache, hdelT]
  have hset : s.set qk qv now = some
      { s with cache := T ++ [(qk, qv)]
               timestamps := dictAssign (dictDelete s.timestamps hd.1) qk now } := by
    unfold CacheService.set
    rw [if_neg (by simp [hen]), if_pos hcond, hcache]
    simp only [List.head?_cons, Option.map_some', Option.some.injEq, hevict]
    rw [hassign, odMoveToEnd_append_last T qk qv (lookup_eq_none_of_not_mem_keys T qk hqT)]
  exact ⟨_, hset, rfl, rfl, rfl, rfl, rfl⟩

end AgentFarm

namespace AgentFarm

/-- C3 (amended).  For an enabled cache with `max_size = n ≥ 1`, setting
`n+1` distinct keys from empty evicts exactly the first-inserted key
(the survivors are the other `n`, in insertion order).  And when
`n ≥ 2`, a `get` of any resident key just before the `(n+1)`-th `set`
protects that key: it stays present and the least-recently-used entry
(the front of the post-`get` order, necessarily a different key) is the
one evicted.  For `n = 1` the protection clause fails — see the
counterexample. -/
theorem lru_eviction (n : Nat) (ttl : Int) (hn : 1 ≤ n) :
    (∀ (K : List (String × V)) (now : Int),
      K.length = n + 1 → (K.map Prod.fst).Nodup →
      ∃ s1, setAll now (CacheService.init V ⟨true, n, ttl⟩) K = some s1 ∧
        s1.cache.map Prod.fst = (K.map Prod.fst).tail) ∧
    (2 ≤ n → ∀ (K' : List (String × V)) (q kv : String × V) (now : Int),
      K'.length = n → ((K' ++ [q]).map Prod.fst).Nodup → kv ∈ K' →
      ∀ sF, setAll now (CacheService.init V ⟨true, n, ttl⟩) K' = some sF →
      ∃ lru s2, (sF.get kv.1 now).1 = some kv.2 ∧
        (sF.get kv.1 now).2.cache.head? = some lru ∧
        (sF.get kv.1 now).2.set q.1 q.2 now = some s2 ∧
        s2.cache.lookup kv.1 = some kv.2 ∧
        s2.cache.lookup lru.1 = none ∧
        lru.1 ≠ kv.1) := by
  constructor
  · intro K now hlen hnd
    rcases List.eq_nil_or_concat K with rfl | ⟨K', q, rfl⟩
    · simp at hlen
    rw [List.concat_eq_append] at hlen hnd ⊢
    have hlenK : K'.length = n := by
      simpa using hlen
    have hndK : ([] ++ K'.map Prod.fst).Nodup := by
      simp only [List.nil_append]
      rw [List.map_append] at hnd
      exact (List.nodup_append.mp hnd).1
    obtain ⟨sF, hrun, hcache, hcfg, henb, -, -, -⟩ :=
      setAll_fill K' (CacheService.init V ⟨true, n, ttl⟩) now rfl (by simp [CacheService.init, hlenK]) hndK
    have hcacheF : sF.cache = K' := by simpa using hcache
    have hqfresh : q.1 ∉ K'.map Prod.fst := by
      rw [List.map_append] at hnd
      rcases List.nodup_append.mp hnd with ⟨-, -, hdisj⟩
      intro hm
      exact hdisj hm (by simp)
    obtain ⟨hd, T, rfl⟩ := List.exists_cons_of_ne_nil
      (List.ne_nil_of_length_pos (by omega : 0 < K'.length))
    obtain ⟨s2, hset, hcache2, -, -, -, -⟩ := set_evicts_head sF hd T q.1 q.2 now
      (by rw [henb]; rfl) hcacheF
      (by rw [hcacheF, hcfg]; show n ≤ (hd :: T).length; exact le_of_eq hlenK.symm)
      (by simpa using hndK) (by simpa using hqfresh)
    refine ⟨s2, ?_, ?_⟩
    · rw [setAll_append, hrun, Option.some_bind]
      simp only [setAll]
      rw [hset]
      rfl
    · rw [hcache2]
      simp
  · intro h2n K' q kv now hlenK hnd hkv sF hrun
    have hndsplit := List.nodup_append.mp (by rw [List.map_append] at hnd; exact hnd)
    obtain ⟨hndK', -, hdisj⟩ := hndsplit
    have hqfresh : q.1 ∉ K'.map Prod.fst := fun hm => hdisj hm (by simp)
    obtain ⟨sF', hrun', hcache, hcfg, henb, -, -, hts⟩ :=
      setAll_fill K' (CacheService.init V ⟨true, n, ttl⟩) now rfl
        (by simp [CacheService.init, hlenK]) (by simpa using hndK')
    rw [hrun'] at hrun
    injection hrun with hrun
    obtain rfl : sF = sF' := hrun.symm
    have hcacheF : sF.cache = K' := by simpa using hcache
    have henF : sF.enabled = true := by rw [henb]; rfl
    have hkvkey : kv.1 ∈ K'.map Prod.fst := List.mem_map_of_mem Prod.fst hkv
    have hlkv : K'.lookup kv.1 = some kv.2 := lookup_of_mem_nodupKeys K' kv.1 kv.2 hndK' hkv
    have htskv : sF.timestamps.lookup kv.1 = some now := by
      rw [hts kv.1, if_pos (by simpa [List.elem_iff] using hkvkey)]
    have hgetcond : ¬(0 < sF.config.ttlSeconds ∧
        sF.config.ttlSeconds < now - (sF.timestamps.lookup kv.1).getD 0) := by
      rw [htskv]
      rintro ⟨h1, h2⟩
      simp only [Option.getD_some] at h2
      omega
    have hcl : sF.cache.lookup kv.1 = some kv.2 := hcacheF ▸ hlkv
    have heq : sF.get kv.1 now = (some kv.2,
        { sF with cache := odMoveToEnd sF.cache kv.1, hits := sF.hits + 1 }) := by
      simp [CacheService.get, henF, hcl, hgetcond]
    have hmove : odMoveToEnd K' kv.1 = dictDelete K' kv.1 ++ [(kv.1, kv.2)] := by
      unfold odMoveToEnd
      rw [hlkv]
    have hlenD : (dictDelete K' kv.1).length + 1 = K'.length :=
      dictDelete_length_of_mem K' kv.1 kv.2 hndK' hkv
    have hDne : dictDelete K' kv.1 ≠ [] := by
      apply List.ne_nil_of_length_pos
      omega
    obtain ⟨lru, T2, hD⟩ := List.exists_cons_of_ne_nil hDne
    have hmemD : ∀ p ∈ dictDelete K' kv.1, p ∈ K' ∧ p.1 ≠ kv.1 :=
      fun p hp => mem_dictDelete K' kv.1 p hp
    have hndD : ((dictDelete K' kv.1).map Prod.fst).Nodup :=
      (keys_dictDelete_sublist K' kv.1).nodup hndK'
    have hlru : lru ∈ K' ∧ lru.1 ≠ kv.1 := hmemD lru (by rw [hD]; simp)
    have hlruT2 : lru.1 ∉ T2.map Prod.fst := by
      rw [hD] at hndD
      simpa using (List.nodup_cons.mp hndD).1
    have hT2 : ∀ p ∈ T2, p ∈ K' ∧ p.1 ≠ kv.1 :=
      fun p hp => hmemD p (by rw [hD]; exact List.mem_cons_of_mem _ hp)
    have hcacheG : ({ sF with cache := odMoveToEnd sF.cache kv.1, hits := sF.hits + 1 } : CacheService V).cache
        = lru :: (T2 ++ [(kv.1, kv.2)]) := by
      show odMoveToEnd sF.cache kv.1 = lru :: (T2 ++ [(kv.1, kv.2)])
      rw [hcacheF, hmove, hD]
      rfl
    have hndkG : ((lru :: (T2 ++ [(kv.1, kv.2)])).map Prod.fst).Nodup := by
      rw [show lru :: (T2 ++ [(kv.1, kv.2)]) = (lru :: T2) ++ [(kv.1, kv.2)] from rfl, ← hD]
      rw [List.map_append]
      apply List.nodup_append.mpr
      refine ⟨hndD, List.nodup_singleton _, ?_⟩
      intro a ha hb
      simp only [List.map_cons, List.map_nil, List.mem_singleton] at hb
      subst hb
      obtain ⟨p, hp, hpk⟩ := List.mem_map.mp ha
      exact (hmemD p hp).2 hpk
    have hqG : q.1 ∉ ((lru :: (T2 ++ [(kv.1, kv.2)])).map Prod.fst) := by
      rw [show lru :: (T2 ++ [(kv.1, kv.2)]) = (lru :: T2) ++ [(kv.1, kv.2)] from rfl, ← hD]
      rw [List.map_append]
      intro hm
      rcases List.mem_append.mp hm with hm1 | hm2
      · obtain ⟨p, hp, hpk⟩ := List.mem_map.mp hm1
        exact hqfresh (hpk ▸ List.mem_map_of_mem Prod.fst (hmemD p hp).1)
      · simp only [List.map_cons, List.map_nil, List.mem_singleton] at hm2
        exact hqfresh (hm2 ▸ hkvkey)
    obtain ⟨s2, hset, hcache2, -, -, -, -⟩ := set_evicts_head
      { sF with cache := odMoveToEnd sF.cache kv.1, hits := sF.hits + 1 } lru
      (T2 ++ [(kv.1, kv.2)]) q.1 q.2 now (by show sF.enabled = true; exact henF) hcacheG
      (by
        rw [hcacheG]
        show sF.config.maxSize ≤ (lru :: (T2 ++ [(kv.1, kv.2)])).length
        have hlen2 : (lru :: (T2 ++ [(kv.1, kv.2)])).length = K'.length := by
          rw [show lru :: (T2 ++ [(kv.1, kv.2)]) = (lru :: T2) ++ [(kv.1, kv.2)] from rfl,
            ← hD, List.length_append, ← hlenD]
          simp
        rw [hlen2, hcfg, hlenK]
        rfl)
      hndkG hqG
    have hT2lookup : T2.lookup kv.1 = none := by
      apply lookup_eq_none_of_not_mem_keys
      intro hm
      obtain ⟨p, hp, hpk⟩ := List.mem_map.mp hm
      exact (hT2 p hp).2 hpk
    refine ⟨lru, s2, ?_, ?_, ?_, ?_, ?_, hlru.2⟩
    · rw [heq]
    · rw [heq]
      show ({ sF with cache := odMoveToEnd sF.cache kv.1, hits := sF.hits + 1 } : CacheService V).cache.head? = some lru
      rw [hcacheG]
      rfl
    · rw [heq]
      exact hset
    · rw [hcache2, List.lookup_append, List.lookup_append, hT2lookup, Option.none_or,
        List.lookup_cons_self]
      rfl
    · rw [hcache2]
      apply lookup_eq_none_of_not_mem_keys
      rw [List.map_append, List.map_append]
      intro hm
      rcases List.mem_append.mp hm with hm1 | hm2
      · rcases List.mem_append.mp hm1 with hm3 | hm4
        · exact hlruT2 hm3
        · simp only [List.map_cons, List.map_nil, List.mem_singleton] at hm4
          exact hlru.2 hm4
      · simp only [List.map_cons, List.map_nil, List.mem_singleton] at hm2
        have : lru.1 ∈ K'.map Prod.fst := List.mem_map_of_mem Prod.fst hlru.1
        exact hqfresh (hm2 ▸ this)


/-- C3 counterexample: with `max_size = 1`, key `"a"` is set, then
`get "a"` succeeds (a hit, so `"a"` is the most recently used key), yet
the next `set "b"` still evicts `"a"` — the claim's protection clause
fails for `n = 1`. -/
theorem lru_eviction_cex :
    (CacheService.init Nat ⟨true, 1, 0⟩).set "a" 1 0
        = some ⟨⟨true, 1, 0⟩, true, [("a", 1)], [("a", 0)], 0, 0⟩ ∧
    ((⟨⟨true, 1, 0⟩, true, [("a", 1)], [("a", 0)], 0, 0⟩ : CacheService Nat).get "a" 5).1
        = some 1 ∧
    ((⟨⟨true, 1, 0⟩, true, [("a", 1)], [("a", 0)], 0, 0⟩ : CacheService Nat).get "a" 5).2.set
        "b" 2 6
        = some ⟨⟨true, 1, 0⟩, true, [("b", 2)], [("b", 6)], 1, 0⟩ ∧
    (⟨⟨true, 1, 0⟩, true, [("b", 2)], [("b", 6)], 1, 0⟩ : CacheService Nat).cache.lookup "a"
        = none :=
  ⟨rfl, rfl, rfl, rfl⟩

/-- Witness for C3 with `n = 2`: three distinct sets evict the first
key; getting `"a"` before the third set protects it and evicts `"b"`
(the LRU) instead. -/
theorem lru_eviction_witness :
    ([("a", (1 : Nat)), ("b", 2), ("c", 3)].map Prod.fst).Nodup ∧
    (∃ s1, setAll 7 (CacheService.init Nat ⟨true, 2, 0⟩) [("a", 1), ("b", 2), ("c", 3)]
        = some s1 ∧
      s1.cache.map Prod.fst = ([("a", (1 : Nat)), ("b", 2), ("c", 3)].map Prod.fst).tail) ∧
    (∃ lru s2,
      ((⟨⟨true, 2, 0⟩, true, [("a", 1), ("b", 2)], [("a", 7), ("b", 7)], 0, 0⟩ :
          CacheService Nat).get "a" 7).1 = some 1 ∧
      ((⟨⟨true, 2, 0⟩, true, [("a", 1), ("b", 2)], [("a", 7), ("b", 7)], 0, 0⟩ :
          CacheService Nat).get "a" 7).2.cache.head? = some lru ∧
      ((⟨⟨true, 2, 0⟩, true, [("a", 1), ("b", 2)], [("a", 7), ("b", 7)], 0, 0⟩ :
          CacheService Nat).get "a" 7).2.set "c" 3 7 = some s2 ∧
      s2.cache.lookup "a" = some 1 ∧
      s2.cache.lookup lru.1 = none ∧
      lru.1 ≠ "a") := by
  refine ⟨by decide, ?_, ?_⟩
  · exact (@lru_eviction Nat 2 0 (by decide)).1 [("a", 1), ("b", 2), ("c", 3)] 7 rfl (by decide)
  · exact (@lru_eviction Nat 2 0 (by decide)).2 (by decide) [("a", 1), ("b", 2)] ("c", 3)
      ("a", 1) 7 rfl (by decide) (by decide) _ rfl

end AgentFarm

namespace AgentFarm

/-! ### C5: cache key generation -/

/-- Strict key order on parameter bindings. -/
def keyLt (p q : String × JVal) : Prop := p.1 < q.1

instance : IsAntisymm (String × JVal) keyLt :=
  ⟨fun _ _ h1 h2 => absurd h2 (lt_asymm h1)⟩

theorem sortParams_eq_of_perm (l1 l2 : List (String × JVal))
    (hp : l1.Perm l2) (hnd : (l1.map Prod.fst).Nodup) :
    sortParams l1 = sortParams l2 := by
  have hnd2 : (l2.map Prod.fst).Nodup := ((hp.map Prod.fst).nodup_iff).mp hnd
  have hstrict : ∀ (l : List (String × JVal)), (l.map Prod.fst).Nodup →
      List.Sorted keyLe (List.insertionSort keyLe l) →
      List.Sorted keyLt (List.insertionSort keyLe l) := by
    intro l hn hs
    have hnds : ((List.insertionSort keyLe l).map Prod.fst).Nodup :=
      (((List.perm_insertionSort keyLe l).map Prod.fst).nodup_iff).mpr hn
    have hne : (List.insertionSort keyLe l).Pairwise (fun p q => p.1 ≠ q.1) :=
      (List.pairwise_map.mp hnds).imp (fun h => h)
    exact (hs.and hne).imp (fun h => lt_of_le_of_ne h.1 h.2)
  have h1 := hstrict l1 hnd (List.sorted_insertionSort keyLe l1)
  have h2 := hstrict l2 hnd2 (List.sorted_insertionSort keyLe l2)
  exact List.eq_of_perm_of_sorted
    (((List.perm_insertionSort keyLe l1).trans hp).trans
      (List.perm_insertionSort keyLe l2).symm) h1 h2

end AgentFarm

namespace AgentFarm

/-- Components of a compression-function output are 32-bit words. -/
def stBounded (st : Sha256State) : Prop :=
  st.a < two32 ∧ st.b < two32 ∧ st.c < two32 ∧ st.d < two32 ∧
  st.e < two32 ∧ st.f < two32 ∧ st.g < two32 ∧ st.h < two32

theorem compress_bounded (st : Sha256State) (b : List Nat) :
    stBounded (sha256Compress st b) := by
  have h32 : 0 < two32 := by norm_num [two32]
  exact ⟨Nat.mod_lt _ h32, Nat.mod_lt _ h32, Nat.mod_lt _ h32, Nat.mod_lt _ h32,
    Nat.mod_lt _ h32, Nat.mod_lt _ h32, Nat.mod_lt _ h32, Nat.mod_lt _ h32⟩

theorem foldl_compress_bounded (st : Sha256State) (bs : List (List Nat))
    (hst : stBounded st) : stBounded (bs.foldl sha256Compress st) := by
  induction bs generalizing st with
  | nil => exact hst
  | cons b bs ih =>
    rw [List.foldl_cons]
    exact ih (sha256Compress st b) (compress_bounded st b)

theorem sha256Words_shape (msg : List Nat) :
    (sha256Words msg).length = 8 ∧ ∀ w ∈ sha256Words msg, w < two32 := by
  refine ⟨rfl, ?_⟩
  have hb := foldl_compress_bounded sha256Init
    (((sha256Pad msg).toChunks 64).map bytesToWords) (by norm_num [sha256Init, stBounded, two32])
  obtain ⟨h1, h2, h3, h4, h5, h6, h7, h8⟩ := hb
  intro w hw
  simp only [sha256Words, List.mem_cons, List.not_mem_nil, or_false] at hw
  rcases hw with rfl | rfl | rfl | rfl | rfl | rfl | rfl | rfl <;> assumption

/-- Every digit emitted by `hexDigitChar` on a value below 16 is a
lower-case hex character. -/
theorem hexDigitChar_mem (m : Nat) (hm : m < 16) :
    hexDigitChar m ∈ ("0123456789abcdef").data := by
  interval_cases m <;> decide

theorem toHex8_length (x : Nat) : (toHex8 x).length = 8 := rfl

theorem toHex8_mem (x : Nat) (c : Char) (hc : c ∈ toHex8 x) :
    c ∈ ("0123456789abcdef").data := by
  have h16 : ∀ y : Nat, y % 16 < 16 := fun y => Nat.mod_lt _ (by norm_num)
  simp only [toHex8, List.mem_cons, List.not_mem_nil, or_false] at hc
  rcases hc with rfl | rfl | rfl | rfl | rfl | rfl | rfl | rfl <;>
    exact hexDigitChar_mem _ (h16 _)

theorem hexFlatten_length (ws : List Nat) :
    ((ws.map toHex8).flatten).length = 8 * ws.length := by
  induction ws with
  | nil => rfl
  | cons w ws ih =>
    simp only [List.map_cons, List.flatten_cons, List.length_append, ih, toHex8_length,
      List.length_cons]
    ring

/-- The hex digest always has 64 characters, all lower-case hex. -/
theorem sha256Hex_shape (msg : List Nat) :
    (sha256Hex msg).length = 64 ∧
    ∀ c ∈ (sha256Hex msg).data, c ∈ ("0123456789abcdef").data := by
  constructor
  · show (((sha256Words msg).map toHex8).flatten).length = 64
    rw [hexFlatten_length, (sha256Words_shape msg).1]
  · intro c hc
    have hc' : c ∈ ((sha256Words msg).map toHex8).flatten := hc
    obtain ⟨l, hl, hcl⟩ := List.mem_flatten.mp hc'
    obtain ⟨x, -, rfl⟩ := List.mem_map.mp hl
    exact toHex8_mem x c hcl

end AgentFarm

namespace AgentFarm

/-- C5 (amended).  `generate_key` is deterministic: permuting the
parameter map does not change the key; the key always has the format
`"{tool_name}:{hex}"` with a 64-character lower-case hex digest of the
canonical (key-sorted) serialisation; different tool names give
different keys for the same parameters; and two keys for the same tool
name are equal exactly when the SHA-256 digests of the canonical
serialisations are equal (so parameter maps with different digests give
different keys; universal distinctness for merely different values is
impossible for a fixed-length digest — see the counterexample). -/
theorem generate_key_properties :
    (∀ (op : String) (p1 p2 : List (String × JVal)),
      p1.Perm p2 → (p1.map Prod.fst).Nodup →
      CacheService.generateKey op p1 = CacheService.generateKey op p2) ∧
    (∀ (op : String) (p : List (String × JVal)),
      CacheService.generateKey op p
          = op ++ ":" ++ sha256Hex (strBytes (jsonDumpsSorted p)) ∧
      (sha256Hex (strBytes (jsonDumpsSorted p))).length = 64 ∧
      ∀ c ∈ (sha256Hex (strBytes (jsonDumpsSorted p))).data,
        c ∈ ("0123456789abcdef").data) ∧
    (∀ (op1 op2 : String) (p : List (String × JVal)),
      op1 ≠ op2 →
      CacheService.generateKey op1 p ≠ CacheService.generateKey op2 p) ∧
    (∀ (op : String) (p1 p2 : List (String × JVal)),
      CacheService.generateKey op p1 = CacheService.generateKey op p2 ↔
      sha256Hex (strBytes (jsonDumpsSorted p1))
        = sha256Hex (strBytes (jsonDumpsSorted p2))) := by
  refine ⟨?_, ?_, ?_, ?_⟩
  · intro op p1 p2 hp hnd
    unfold CacheService.generateKey jsonDumpsSorted
    rw [sortParams_eq_of_perm p1 p2 hp hnd]
  · intro op p
    exact ⟨rfl, (sha256Hex_shape _).1, (sha256Hex_shape _).2⟩
  · intro op1 op2 p hne heq
    apply hne
    have hdata := congrArg String.data heq
    simp only [String.data_append] at hdata
    have h1 := (List.append_inj' hdata rfl).1
    have h2 := (List.append_inj' h1 rfl).1
    exact String.ext h2
  · intro op p1 p2
    constructor
    · intro heq
      have hdata := congrArg String.data heq
      simp only [String.data_append] at hdata
      have h1 := (List.append_inj' hdata ?hlen).2
      · exact String.ext h1
      case hlen =>
        show (sha256Hex (strBytes (jsonDumpsSorted p1))).data.length = _
        have e1 := (sha256Hex_shape (strBytes (jsonDumpsSorted p1))).1
        have e2 := (sha256Hex_shape (strBytes (jsonDumpsSorted p2))).1
        show (sha256Hex (strBytes (jsonDumpsSorted p1))).length = (sha256Hex (strBytes (jsonDumpsSorted p2))).length
        rw [e1, e2]
    · intro heq
      show op ++ ":" ++ sha256Hex (strBytes (jsonDumpsSorted p1))
          = op ++ ":" ++ sha256Hex (strBytes (jsonDumpsSorted p2))
      rw [heq]

/-- Witness for C5 at concrete operation names and parameter maps. -/
theorem generate_key_properties_witness :
    ([("a", JVal.int 1), ("b", JVal.int 2)].Perm [("b", JVal.int 2), ("a", JVal.int 1)]) ∧
    CacheService.generateKey "op" [("a", JVal.int 1), ("b", JVal.int 2)]
        = CacheService.generateKey "op" [("b", JVal.int 2), ("a", JVal.int 1)] ∧
    CacheService.generateKey "op" [("a", JVal.int 1)]
        = "op" ++ ":" ++ sha256Hex (strBytes (jsonDumpsSorted [("a", JVal.int 1)])) ∧
    (sha256Hex (strBytes (jsonDumpsSorted [("a", JVal.int 1)]))).length = 64 ∧
    ("op1" : String) ≠ "op2" ∧
    CacheService.generateKey "op1" [("a", JVal.int 1)]
        ≠ CacheService.generateKey "op2" [("a", JVal.int 1)] := by
  have hperm : ([("a", JVal.int 1), ("b", JVal.int 2)].Perm
      [("b", JVal.int 2), ("a", JVal.int 1)]) := by decide
  refine ⟨hperm, ?_, ?_, ?_, by decide, ?_⟩
  · exact generate_key_properties.1 "op" _ _ hperm (by decide)
  · exact (generate_key_properties.2.1 "op" [("a", JVal.int 1)]).1
  · exact (generate_key_properties.2.1 "op" [("a", JVal.int 1)]).2.1
  · exact generate_key_properties.2.2.1 "op1" "op2" [("a", JVal.int 1)] (by decide)

end AgentFarm

namespace AgentFarm

/-- Base-2^32 encoding of a word list. -/
def wordsToNat (ws : List Nat) : Nat :=
  ws.foldl (fun a w => a * two32 + w) 0

theorem foldl_encode_inj (ws1 : List Nat) :
    ∀ (ws2 : List Nat) (a1 a2 : Nat),
    ws1.length = ws2.length → (∀ w ∈ ws1, w < two32) → (∀ w ∈ ws2, w < two32) →
    ws1.foldl (fun a w => a * two32 + w) a1 = ws2.foldl (fun a w => a * two32 + w) a2 →
    a1 = a2 ∧ ws1 = ws2 := by
  induction ws1 with
  | nil =>
    intro ws2 a1 a2 hlen _ _ hfold
    rw [List.length_nil] at hlen
    obtain rfl := (List.length_eq_zero.mp hlen.symm)
    exact ⟨hfold, rfl⟩
  | cons w1 t1 ih =>
    intro ws2 a1 a2 hlen hb1 hb2 hfold
    rcases ws2 with _ | ⟨w2, t2⟩
    · simp at hlen
    simp only [List.length_cons, Nat.succ.injEq] at hlen
    simp only [List.foldl_cons] at hfold
    obtain ⟨hacc, rfl⟩ := ih t2 (a1 * two32 + w1) (a2 * two32 + w2) hlen
      (fun w hw => hb1 w (List.mem_cons_of_mem _ hw))
      (fun w hw => hb2 w (List.mem_cons_of_mem _ hw)) hfold
    have hw1 : w1 < two32 := hb1 w1 (by simp)
    have hw2 : w2 < two32 := hb2 w2 (by simp)
    have h32 : two32 = 4294967296 := rfl
    rw [h32] at hacc hw1 hw2
    have : a1 = a2 ∧ w1 = w2 := by omega
    exact ⟨this.1, by rw [this.2]⟩

theorem foldl_encode_bound (ws : List Nat) :
    ∀ (a : Nat), (∀ w ∈ ws, w < two32) →
    ws.foldl (fun a w => a * two32 + w) a < (a + 1) * two32 ^ ws.length := by
  induction ws with
  | nil =>
    intro a _
    simp [Nat.lt_succ_self]
  | cons w t ih =>
    intro a hb
    rw [List.foldl_cons, List.length_cons]
    have hw : w < two32 := hb w (by simp)
    have hstep : a * two32 + w + 1 ≤ (a + 1) * two32 := by
      have h32 : two32 = 4294967296 := rfl
      rw [h32] at hw ⊢
      omega
    calc t.foldl (fun a w => a * two32 + w) (a * two32 + w)
        < (a * two32 + w + 1) * two32 ^ t.length :=
          ih (a * two32 + w) (fun x hx => hb x (List.mem_cons_of_mem _ hx))
      _ ≤ ((a + 1) * two32) * two32 ^ t.length :=
          Nat.mul_le_mul_right _ hstep
      _ = (a + 1) * two32 ^ (t.length + 1) := by ring

/-- The digest determines `sha256Hex`. -/
theorem sha256Hex_congr (m1 m2 : List Nat) (h : sha256Words m1 = sha256Words m2) :
    sha256Hex m1 = sha256Hex m2 := by
  unfold sha256Hex
  rw [h]

/-- C5 counterexample: the negation of the claim's universal
value-distinctness.  A SHA-256 digest has only `2^256` possible values
while there are more than `2^256` single-binding parameter maps
`{"a": v}`, so by pigeonhole two maps that differ in the value of `"a"`
share one cache key. -/
theorem generate_key_distinctness_cex :
    ¬ (∀ v1 v2 : Int, v1 ≠ v2 →
        CacheService.generateKey "op" [("a", JVal.int v1)]
          ≠ CacheService.generateKey "op" [("a", JVal.int v2)]) := by
  intro hclaim
  have hmaps : ∀ m ∈ Finset.range (two32 ^ 8 + 1),
      wordsToNat (sha256Words (strBytes (jsonDumpsSorted [("a", JVal.int (m : Int))])))
        ∈ Finset.range (two32 ^ 8) := by
    intro m _
    apply Finset.mem_range.mpr
    have hshape := sha256Words_shape (strBytes (jsonDumpsSorted [("a", JVal.int (m : Int))]))
    have hb := foldl_encode_bound
      (sha256Words (strBytes (jsonDumpsSorted [("a", JVal.int (m : Int))]))) 0 hshape.2
    rw [hshape.1] at hb
    simpa using hb
  have hcard : (Finset.range (two32 ^ 8)).card < (Finset.range (two32 ^ 8 + 1)).card := by
    simp [Finset.card_range]
  obtain ⟨m1, -, m2, -, hne, hcollide⟩ :=
    Finset.exists_ne_map_eq_of_card_lt_of_maps_to hcard hmaps
  have hwords : sha256Words (strBytes (jsonDumpsSorted [("a", JVal.int (m1 : Int))]))
      = sha256Words (strBytes (jsonDumpsSorted [("a", JVal.int (m2 : Int))])) := by
    have hs1 := sha256Words_shape (strBytes (jsonDumpsSorted [("a", JVal.int (m1 : Int))]))
    have hs2 := sha256Words_shape (strBytes (jsonDumpsSorted [("a", JVal.int (m2 : Int))]))
    exact (foldl_encode_inj _ _ 0 0 (by rw [hs1.1, hs2.1]) hs1.2 hs2.2 hcollide).2
  have hkeys : CacheService.generateKey "op" [("a", JVal.int (m1 : Int))]
      = CacheService.generateKey "op" [("a", JVal.int (m2 : Int))] := by
    show "op" ++ ":" ++ sha256Hex (strBytes (jsonDumpsSorted [("a", JVal.int (m1 : Int))]))
        = "op" ++ ":" ++ sha256Hex (strBytes (jsonDumpsSorted [("a", JVal.int (m2 : Int))]))
    rw [sha256Hex_congr _ _ hwords]
  exact hclaim (m1 : Int) (m2 : Int) (by exact_mod_cast hne) hkeys

end AgentFarm
